import Mathlib

/-!
Verification development for the storage core of a teaching-grade relational
engine (buffer pool, LRU-K replacer, extendible hash table, B+ tree).

Shallow embedding conventions:
  * page ids are `Int` with `INVALID_PAGE_ID = -1`;
  * keys and values of the B+ tree are `Int` (GenericKey / RID abstracted to
    integers, with the comparator realised as integer comparison);
  * a C++ page's entry array `array_` (fixed capacity, garbage past `size`)
    is a `List` of fixed length `max_size + 2`, indexed with `List.getD` /
    `List.set`, together with a separate `size` field — exactly mirroring the
    separate `size_` bookkeeping of the source;
  * in-place pointer mutation is modelled by threading a page store
    (`List (Int × BPage)`) and writing a page back at the same program points
    where the C++ code mutates it;
  * recursion through the page graph uses explicit fuel; `none` marks a
    computation that ran out of fuel or fetched a page id absent from the
    store (in the C++ code such a fetch reads freed disk bytes — undefined
    behaviour for the tree).
-/

namespace BusTub

/-- `INVALID_PAGE_ID` sentinel of the source. -/
def INVALID_PAGE_ID : Int := -1

/-- Result sign of `KeyComparator`: negative / zero / positive. -/
def compareKey (a b : Int) : Int :=
  if a < b then -1 else if a = b then 0 else 1

/-- One slot of a page's `array_`: `(key, value)` for leaves,
`(key, child page id)` for internal pages. -/
abbrev Entry := Int × Int

/-- `BPlusTreeLeafPage`: header fields plus the entry array.
`arr` has fixed length `maxSize + 2` (the physical capacity); only the first
`size` slots are live, the rest mirror the garbage past `size_` in C++. -/
structure LeafPg where
  pid : Int
  parent : Int
  maxSize : Nat
  size : Nat
  next : Int
  arr : List Entry
deriving DecidableEq, Repr

/-- `BPlusTreeInternalPage`: header fields plus the `(key, child)` array;
slot 0's key is unused (sentinel). -/
structure IntPg where
  pid : Int
  parent : Int
  maxSize : Nat
  size : Nat
  arr : List Entry
deriving DecidableEq, Repr

/-- A `BPlusTreePage` dispatched on `page_type`. -/
inductive BPage where
  | leaf : LeafPg → BPage
  | internal : IntPg → BPage
deriving DecidableEq, Repr

namespace BPage

def isLeaf : BPage → Bool
  | .leaf _ => true
  | .internal _ => false

def size : BPage → Nat
  | .leaf l => l.size
  | .internal p => p.size

def maxSize : BPage → Nat
  | .leaf l => l.maxSize
  | .internal p => p.maxSize

def parent : BPage → Int
  | .leaf l => l.parent
  | .internal p => p.parent

def pid : BPage → Int
  | .leaf l => l.pid
  | .internal p => p.pid

/-- `SetParentPageId`. -/
def setParent : BPage → Int → BPage
  | .leaf l, x => .leaf { l with parent := x }
  | .internal p, x => .internal { p with parent := x }

/-- `SetPageId` (note: distinct from `setParent`; `RemoveInternal`'s borrow
branches call this one on a child page). -/
def setPid : BPage → Int → BPage
  | .leaf l, x => .leaf { l with pid := x }
  | .internal p, x => .internal { p with pid := x }

/-- Modelled from the spec: `GetMinSize` lives in `b_plus_tree_page.cpp`,
which is not among the provided sources; spec §3 states
`min_size = ⌈max_size/2⌉` for both node types. -/
def minSize (p : BPage) : Nat := (p.maxSize + 1) / 2

end BPage

/-- `LeafPage::Init`: fresh leaf (size 0, next = INVALID). The physical
array is `maxSize + 2` zeroed slots. -/
def leafInit (pid parent : Int) (max : Nat) : LeafPg :=
  { pid := pid, parent := parent, maxSize := max, size := 0,
    next := INVALID_PAGE_ID, arr := List.replicate (max + 2) ((0 : Int), (0 : Int)) }

/-- `InternalPage::Init`: fresh internal page; the source sets `size` to 1
(the slot-0 child slot). -/
def internalInit (pid parent : Int) (max : Nat) : IntPg :=
  { pid := pid, parent := parent, maxSize := max, size := 1,
    arr := List.replicate (max + 2) ((0 : Int), (0 : Int)) }

/-- State of a `BPlusTree` instance together with its page store (the pages
reachable through the buffer pool) and the page-id allocator. -/
structure BPT where
  root : Int
  nextPid : Int
  leafMax : Nat
  internalMax : Nat
  store : List (Int × BPage)
deriving DecidableEq, Repr

/-- An empty tree (`root_page_id_ = INVALID_PAGE_ID`). Fresh page ids start
at 1 (page 0 is the header page of the buffer pool). -/
def emptyBPT (leafMax internalMax : Nat) : BPT :=
  { root := INVALID_PAGE_ID, nextPid := 1, leafMax := leafMax,
    internalMax := internalMax, store := [] }

/-- `FetchPage` through the buffer pool: `none` when the page id is not in
the store (the C++ code would read freed bytes from disk). -/
def fetchPage (st : BPT) (pid : Int) : Option BPage :=
  (st.store.find? (fun e => e.1 == pid)).map (fun e => e.2)

/-- Write a page back (in C++ the mutation was in place through the frame
pointer); inserts the entry when the id is new. -/
def writePage (st : BPT) (pid : Int) (p : BPage) : BPT :=
  if st.store.any (fun e => e.1 == pid) then
    { st with store := st.store.map (fun e => if e.1 == pid then (pid, p) else e) }
  else
    { st with store := st.store ++ [(pid, p)] }

/-- `NewPage`: allocate a fresh page id (monotonic allocator). The caller
Inits and writes the page. -/
def newPageB (st : BPT) : Int × BPT :=
  (st.nextPid, { st with nextPid := st.nextPid + 1 })

/-- `DeletePage`: the tree calls it with the page unpinned, so the frame is
returned to the free pool and the page leaves the store. -/
def deletePageB (st : BPT) (pid : Int) : BPT :=
  { st with store := st.store.filter (fun e => !(e.1 == pid)) }

/-- Body of the shift-right loop, structurally recursive on the number of
remaining iterations. -/
def shiftRightGo : List Entry → Nat → Nat → List Entry
  | arr, _, 0 => arr
  | arr, i, rem + 1 => shiftRightGo (arr.set i (arr.getD (i - 1) (0, 0))) (i - 1) rem

/-- Shift-right loop `for (i = hi; i > idx; i--) arr[i] = arr[i-1]`. -/
def shiftRight (arr : List Entry) (i idx : Nat) : List Entry :=
  shiftRightGo arr i (i - idx)

/-- Body of the shift-left loop (`rem` = remaining iterations). -/
def shiftLeftGo : List Entry → Nat → Nat → List Entry
  | arr, _, 0 => arr
  | arr, i, rem + 1 => shiftLeftGo (arr.set i (arr.getD (i + 1) (0, 0))) (i + 1) rem

/-- Shift-left loop `for (i = idx; i < stop; i++) arr[i] = arr[i+1]`. -/
def shiftLeft (arr : List Entry) (i stop : Nat) : List Entry :=
  shiftLeftGo arr i (stop - i)

/-- Scan body of `BPlusTree::InsertIntoLeaf` (`rem` = slots left to scan). -/
def leafInsertIdxGo (arr : List Entry) (key : Int) : Nat → Nat → Option Nat
  | i, 0 => some i
  | i, rem + 1 =>
      if compareKey key (arr.getD i (0, 0)).1 = 0 then none
      else if compareKey key (arr.getD i (0, 0)).1 < 0 then some i
      else leafInsertIdxGo arr key (i + 1) rem

/-- Index search of `BPlusTree::InsertIntoLeaf`: first slot with
`key < arr[i]` (insertion point), `none` on a duplicate key. -/
def leafInsertIdx (arr : List Entry) (size : Nat) (key : Int) : Option Nat :=
  leafInsertIdxGo arr key 0 size

/-- `BPlusTree::InsertIntoLeaf`: sorted insert, `false` on duplicate. -/
def insertIntoLeaf (page : LeafPg) (key value : Int) : Bool × LeafPg :=
  match leafInsertIdx page.arr page.size key with
  | none => (false, page)
  | some idx =>
      let arr1 := shiftRight page.arr page.size idx
      (true, { page with arr := arr1.set idx (key, value), size := page.size + 1 })

/-- Downward scan of `InsertIntoInternal` / `LowerBoundInternal`:
`for (index = size-1; index >= 1; index--) if (key >= arr[index].key) break;`
returns the final `index` (0 when no slot from `size-1` down to 1 matches).
Called with `i = size - 1`. -/
def internalScanDown (arr : List Entry) (key : Int) : Nat → Nat
  | 0 => 0
  | i + 1 =>
      if compareKey key (arr.getD (i + 1) (0, 0)).1 ≥ 0 then i + 1
      else internalScanDown arr key i

/-- `BPlusTree::InsertIntoInternal`: insert `(key, child)` at slot
`index + 1` where `index` is the downward-scan result (`-1`, i.e. insertion
at slot 0, when the page has size 0). Always returns true in the source. -/
def insertIntoInternal (page : IntPg) (key : Int) (child : Int) : IntPg :=
  let pos : Nat := if page.size = 0 then 0 else internalScanDown page.arr key (page.size - 1) + 1
  let arr1 := shiftRight page.arr page.size pos
  { page with arr := arr1.set pos (key, child), size := page.size + 1 }

/-- `BPlusTree::LowerBoundInternal`: entry at the downward-scan index.
(With size 0 the C++ code reads `NodeAt(-1)`; the model returns slot 0's
default.) -/
def lowerBoundInternal (page : IntPg) (key : Int) : Entry :=
  if page.size = 0 then page.arr.getD 0 (0, 0)
  else page.arr.getD (internalScanDown page.arr key (page.size - 1)) (0, 0)

/-- Downward scan of `BPlusTree::LowerBoundLeaf`: largest `i ≤ start` with
`key ≥ arr[i].key`, else `none`. -/
def leafLowerBoundAux (arr : List Entry) (key : Int) : Nat → Option Entry
  | 0 => if compareKey key (arr.getD 0 (0, 0)).1 ≥ 0 then some (arr.getD 0 (0, 0)) else none
  | i + 1 =>
      if compareKey key (arr.getD (i + 1) (0, 0)).1 ≥ 0 then some (arr.getD (i + 1) (0, 0))
      else leafLowerBoundAux arr key i

/-- `BPlusTree::LowerBoundLeaf`: pointer to the largest entry with
`key ≥ entry.key`, `nullptr` (`none`) when all keys exceed `key`. -/
def lowerBoundLeaf (page : LeafPg) (key : Int) : Option Entry :=
  if page.size = 0 then none
  else leafLowerBoundAux page.arr key (page.size - 1)

/-- Exact-match scan body of `BPlusTree::RemoveFromLeaf`. -/
def leafExactIdxGo (arr : List Entry) (key : Int) : Nat → Nat → Option Nat
  | _, 0 => none
  | i, rem + 1 =>
      if compareKey key (arr.getD i (0, 0)).1 = 0 then some i
      else leafExactIdxGo arr key (i + 1) rem

/-- Exact-match scan of `BPlusTree::RemoveFromLeaf`. -/
def leafExactIdx (arr : List Entry) (size : Nat) (key : Int) : Option Nat :=
  leafExactIdxGo arr key 0 size

/-- `BPlusTree::RemoveFromLeaf`: exact match, shift-left, size decrement;
`false` (page unchanged) when the key is absent. -/
def removeFromLeaf (page : LeafPg) (key : Int) : Bool × LeafPg :=
  match leafExactIdx page.arr page.size key with
  | none => (false, page)
  | some idx =>
      (true, { page with arr := shiftLeft page.arr idx (page.size - 1), size := page.size - 1 })

/-- `BPlusTree::IsOverFlowed`: leaf at `max_size`, internal at `max_size+1`. -/
def isOverFlowed (p : BPage) : Bool :=
  (p.isLeaf && p.size == p.maxSize) || (!p.isLeaf && p.size == p.maxSize + 1)

/-- `BPlusTree::IsUnderFlowed`: `size < min_size`. -/
def isUnderFlowed (p : BPage) : Bool := p.size < p.minSize

/-- Modelled from the spec: leaf `min_size = ⌈max_size/2⌉` (spec §3);
`GetMinSize` itself is in `b_plus_tree_page.cpp`, absent from the sources. -/
def LeafPg.minSize (l : LeafPg) : Nat := (l.maxSize + 1) / 2

/-- Modelled from the spec: internal `min_size = ⌈max_size/2⌉` (spec §3). -/
def IntPg.minSize (p : IntPg) : Nat := (p.maxSize + 1) / 2

/-- Body of the copy loop (`rem` = remaining iterations). -/
def copyRangeGo (src : List Entry) : List Entry → Nat → Nat → Nat → List Entry
  | dst, _, _, 0 => dst
  | dst, i, j, rem + 1 => copyRangeGo src (dst.set j (src.getD i (0, 0))) (i + 1) (j + 1) rem

/-- Copy loop `for (i = lo, j = 0; i < stop; i++, j++) dst[j] = src[i]` of
the split paths. -/
def copyRange (src dst : List Entry) (i j stop : Nat) : List Entry :=
  copyRangeGo src dst i j (stop - i)

/-- Body of the child-reparenting loop of the internal split: fetch each
child of the new sibling and `SetParentPageId(sibling)`. -/
def reparentChildrenGo (arr : List Entry) (newParent : Int) :
    BPT → Nat → Nat → Option BPT
  | st, _, 0 => some st
  | st, i, rem + 1 =>
      let cid := (arr.getD i (0, 0)).2
      match fetchPage st cid with
      | none => none
      | some c => reparentChildrenGo arr newParent (writePage st cid (c.setParent newParent)) (i + 1) rem

/-- Child-reparenting loop of the internal split. -/
def reparentChildren (st : BPT) (arr : List Entry) (i stop : Nat) (newParent : Int) :
    Option BPT :=
  reparentChildrenGo arr newParent st i (stop - i)

/-- `BPlusTree::GetValueInternal`: descend by `LowerBoundInternal`, then
exact-match against the leaf's lower-bound slot. Result: `some (some v)`
when found, `some none` when the key is reported absent, `none` when a
fetch hit a page id outside the store or fuel ran out. -/
def getValueInternal (fuel : Nat) (st : BPT) (pageId key : Int) : Option (Option Int) :=
  match fuel with
  | 0 => none
  | fuel + 1 =>
    match fetchPage st pageId with
    | none => none
    | some (.leaf l) =>
        match lowerBoundLeaf l key with
        | some e => if compareKey key e.1 = 0 then some (some e.2) else some none
        | none => some none
    | some (.internal p) =>
        getValueInternal fuel st (lowerBoundInternal p key).2 key

/-- `BPlusTree::GetValue`. -/
def getValue (fuel : Nat) (st : BPT) (key : Int) : Option (Option Int) :=
  if st.root = INVALID_PAGE_ID then some none
  else getValueInternal fuel st st.root key

/-- `BPlusTree::InsertInternal`: recursive insert with post-order split.
Returns `(inserted?, new tree state)`; `none` on fuel exhaustion or a fetch
of a page id absent from the store. -/
def insertInternalB (fuel : Nat) (st : BPT) (pageId key value : Int) :
    Option (Bool × BPT) :=
  match fuel with
  | 0 => none
  | fuel + 1 =>
    match fetchPage st pageId with
    | none => none
    | some pg =>
      -- leaf insert, or descend through LowerBoundInternal
      let step : Option (Bool × BPT) :=
        match pg with
        | .leaf l =>
            let (ins, l') := insertIntoLeaf l key value
            if ins then some (true, writePage st pageId (.leaf l')) else some (false, st)
        | .internal p =>
            insertInternalB fuel st (lowerBoundInternal p key).2 key value
      match step with
      | none => none
      | some (false, st1) => some (false, st1)
      | some (true, st1) =>
        match fetchPage st1 pageId with
        | none => none
        | some cur =>
          if !isOverFlowed cur then some (true, st1)
          else
            -- overflowed: if root, first create a fresh internal parent
            let rootStep : BPT × BPage :=
              if cur.parent = INVALID_PAGE_ID then
                let (nrId, stA) := newPageB st1
                let nr0 := internalInit nrId INVALID_PAGE_ID st1.internalMax
                let nr := { nr0 with arr := nr0.arr.set 0 ((nr0.arr.getD 0 (0, 0)).1, pageId) }
                let stB := writePage stA nrId (.internal nr)
                let cur' := cur.setParent nrId
                ({ writePage stB pageId cur' with root := nrId }, cur')
              else (st1, cur)
            let st2 := rootStep.1
            let cur2 := rootStep.2
            let parentId := cur2.parent
            match fetchPage st2 parentId with
            | some (.internal parentPg) =>
              -- allocate the sibling and move the upper half across
              let (sid, st3) := newPageB st2
              match cur2 with
              | .leaf cl =>
                  let sibling0 := leafInit sid parentId st3.leafMax
                  let sarr := copyRange cl.arr sibling0.arr cl.minSize 0 cl.size
                  let sibling := { sibling0 with arr := sarr, size := cl.size - cl.minSize }
                  let cur3 := { cl with size := cl.minSize }
                  let parent' := insertIntoInternal parentPg (sarr.getD 0 (0, 0)).1 sid
                  let cur4 := { cur3 with next := sid }
                  let st4 := writePage st3 sid (.leaf sibling)
                  let st5 := writePage st4 pageId (.leaf cur4)
                  some (true, writePage st5 parentId (.internal parent'))
              | .internal cp =>
                  let sibling0 := internalInit sid parentId st3.internalMax
                  let half := cp.size / 2
                  let sarr := copyRange cp.arr sibling0.arr half 0 cp.size
                  let sibling := { sibling0 with arr := sarr, size := cp.size - half }
                  let cur3 := { cp with size := half }
                  let stA := writePage st3 sid (.internal sibling)
                  let stB := writePage stA pageId (.internal cur3)
                  match reparentChildren stB sarr 0 sibling.size sid with
                  | none => none
                  | some stC =>
                      let parent' := insertIntoInternal parentPg (sarr.getD 0 (0, 0)).1 sid
                      some (true, writePage stC parentId (.internal parent'))
            | _ => none

/-- `BPlusTree::Insert`: create a leaf root for an empty tree, then insert. -/
def insertB (fuel : Nat) (st : BPT) (key value : Int) : Option (Bool × BPT) :=
  let st0 :=
    if st.root = INVALID_PAGE_ID then
      let (rid, st') := newPageB st
      { writePage st' rid (.leaf (leafInit rid INVALID_PAGE_ID st.leafMax)) with root := rid }
    else st
  insertInternalB fuel st0 st0.root key value

/-- Body of the leaf-merge loop. -/
def mergeLeafLoopGo (rarr : List Entry) : LeafPg → Nat → Nat → LeafPg
  | left, _, 0 => left
  | left, i, rem + 1 =>
      mergeLeafLoopGo rarr (insertIntoLeaf left (rarr.getD i (0, 0)).1 (rarr.getD i (0, 0)).2).2
        (i + 1) rem

/-- Leaf-merge loop: `for (i = 0; i < right.size; i++) InsertIntoLeaf(left, right[i])`. -/
def mergeLeafLoop (left : LeafPg) (rarr : List Entry) (i stop : Nat) : LeafPg :=
  mergeLeafLoopGo rarr left i (stop - i)

/-- Body of the internal-merge loop. -/
def mergeInternalLoopGo (rarr : List Entry) : IntPg → Nat → Nat → IntPg
  | left, _, 0 => left
  | left, i, rem + 1 =>
      mergeInternalLoopGo rarr (insertIntoInternal left (rarr.getD i (0, 0)).1 (rarr.getD i (0, 0)).2)
        (i + 1) rem

/-- Internal-merge loop: `for (i = 0; i < right.size; i++) InsertIntoInternal(left, right[i])`. -/
def mergeInternalLoop (left : IntPg) (rarr : List Entry) (i stop : Nat) : IntPg :=
  mergeInternalLoopGo rarr left i (stop - i)

/-- Body of the child scans of `RemoveInternal` (`dflt` is the value the
C++ code leaves in `index` when no slot matches). -/
def findChildIdxGo (arr : List Entry) (pid : Int) (dflt : Nat) : Nat → Nat → Nat
  | _, 0 => dflt
  | i, rem + 1 =>
      if (arr.getD i (0, 0)).2 == pid then i else findChildIdxGo arr pid dflt (i + 1) rem

/-- Scan of `RemoveInternal`: `int index = 0; for (i = 0; i < size; i++) if
(parent[i].second == pid) { index = i; break; }`. -/
def findChildIdx (arr : List Entry) (size : Nat) (pid : Int) : Nat :=
  findChildIdxGo arr pid 0 0 size

/-- Scan of the merge epilogue: `for (index = 1; index < size; index++) if
(parent[index].second == rightPid) break;` — yields `size` when absent. -/
def findChildIdxFrom1 (arr : List Entry) (size : Nat) (pid : Int) : Nat :=
  findChildIdxGo arr pid size 1 (size - 1)

/-- The post-recursion body of `BPlusTree::RemoveInternal` (underflow check,
borrow from left/right sibling, merge). Mirrors the source statement by
statement; `none` marks a fetch of a page id absent from the store. -/
def handleUnderflow (st : BPT) (pageId : Int) : Option BPT :=
  match fetchPage st pageId with
  | none => none
  | some cur =>
    if st.root = pageId || !isUnderFlowed cur then some st
    else
      let parentId := cur.parent
      match fetchPage st parentId with
      | some (.internal parentPg) =>
        let index := findChildIdx parentPg.arr parentPg.size pageId
        let leftSibId := if index > 0 then (parentPg.arr.getD (index - 1) (0, 0)).2
                         else INVALID_PAGE_ID
        -- borrow from the left sibling if possible
        let tryLeft : Option (Option BPT) :=
          if leftSibId ≠ INVALID_PAGE_ID then
            match fetchPage st leftSibId with
            | none => some none
            | some leftSib =>
              let lsize := leftSib.size
              if lsize > leftSib.minSize then some (
                match cur, leftSib with
                | .leaf cl, .leaf ll =>
                    let cur' := (insertIntoLeaf cl (ll.arr.getD (lsize - 1) (0, 0)).1
                                  (ll.arr.getD (lsize - 1) (0, 0)).2).2
                    let st1 := writePage st pageId (.leaf cur')
                    let parent' := { parentPg with
                      arr := parentPg.arr.set index
                        ((cur'.arr.getD 0 (0, 0)).1, (parentPg.arr.getD index (0, 0)).2) }
                    let st2 := writePage st1 parentId (.internal parent')
                    let st3 := writePage st2 leftSibId (.leaf { ll with size := lsize - 1 })
                    some st3
                | .internal cp, .internal lp =>
                    let cur' := insertIntoInternal cp (lp.arr.getD (lsize - 1) (0, 0)).1
                                  (lp.arr.getD (lsize - 1) (0, 0)).2
                    let st1 := writePage st pageId (.internal cur')
                    let parent' := { parentPg with
                      arr := parentPg.arr.set index
                        ((cur'.arr.getD 0 (0, 0)).1, (parentPg.arr.getD index (0, 0)).2) }
                    let st2 := writePage st1 parentId (.internal parent')
                    -- the source fetches cur[0]'s child and calls SetPageId
                    -- (not SetParentPageId) with the current node's page id
                    let childId := (cur'.arr.getD 0 (0, 0)).2
                    match fetchPage st2 childId with
                    | none => none
                    | some child =>
                        let st3 := writePage st2 childId (child.setPid cur.pid)
                        some (writePage st3 leftSibId (.internal { lp with size := lsize - 1 }))
                | _, _ => none)
              else none
          else none
        match tryLeft with
        | some r => r
        | none =>
          let rightSibId := if index < parentPg.size - 1 then (parentPg.arr.getD (index + 1) (0, 0)).2
                            else INVALID_PAGE_ID
          -- borrow from the right sibling if possible
          let tryRight : Option (Option BPT) :=
            if rightSibId ≠ INVALID_PAGE_ID then
              match fetchPage st rightSibId with
              | none => some none
              | some rightSib =>
                let rsize := rightSib.size
                if rsize > rightSib.minSize then some (
                  match cur, rightSib with
                  | .leaf cl, .leaf rl =>
                      let cur' := (insertIntoLeaf cl (rl.arr.getD 0 (0, 0)).1
                                    (rl.arr.getD 0 (0, 0)).2).2
                      let rl' := (removeFromLeaf rl (rl.arr.getD 0 (0, 0)).1).2
                      let parent' := { parentPg with
                        arr := parentPg.arr.set (index + 1)
                          ((rl'.arr.getD 0 (0, 0)).1, (parentPg.arr.getD (index + 1) (0, 0)).2) }
                      let st1 := writePage st pageId (.leaf cur')
                      let st2 := writePage st1 rightSibId (.leaf rl')
                      some (writePage st2 parentId (.internal parent'))
                  | .internal cp, .internal rp =>
                      let cur' := insertIntoInternal cp (rp.arr.getD 0 (0, 0)).1
                                    (rp.arr.getD 0 (0, 0)).2
                      let rp' := { rp with arr := shiftLeft rp.arr 0 (rsize - 1), size := rsize - 1 }
                      let parent' := { parentPg with
                        arr := parentPg.arr.set (index + 1)
                          ((rp'.arr.getD 0 (0, 0)).1, (parentPg.arr.getD (index + 1) (0, 0)).2) }
                      let st1 := writePage st pageId (.internal cur')
                      let st2 := writePage st1 rightSibId (.internal rp')
                      let st3 := writePage st2 parentId (.internal parent')
                      -- SetPageId bug again: the last child of cur gets its
                      -- page id (not parent id) overwritten
                      let childId := (cur'.arr.getD (cur'.size - 1) (0, 0)).2
                      match fetchPage st3 childId with
                      | none => none
                      | some child => some (writePage st3 childId (child.setPid cur.pid))
                  | _, _ => none)
                else none
            else none
          match tryRight with
          | some r => r
          | none =>
            -- no borrow possible; if the current node is the parent's only
            -- child, give up (the source just returns)
            if parentPg.size = 1 then some st
            else
              -- merge with a sibling: cur plays left when it is not the
              -- parent's last entry, else the left neighbour absorbs cur
              let pick : Option (Int × BPage × Int × BPage) :=
                if index < parentPg.size - 1 then
                  let rid := (parentPg.arr.getD (index + 1) (0, 0)).2
                  match fetchPage st rid with
                  | none => none
                  | some rpage => some (pageId, cur, rid, rpage)
                else
                  let lid := (parentPg.arr.getD (index - 1) (0, 0)).2
                  match fetchPage st lid with
                  | none => none
                  | some lpage => some (lid, lpage, pageId, cur)
              match pick with
              | none => none
              | some (leftId, leftPage, rightId, rightPage) =>
                let merged : Option BPT :=
                  match leftPage, rightPage with
                  | .leaf ll, .leaf rl =>
                      let ll' := mergeLeafLoop ll rl.arr 0 rl.size
                      some (writePage st leftId (.leaf { ll' with next := rl.next }))
                  | .internal lp, .internal rp =>
                      some (writePage st leftId (.internal (mergeInternalLoop lp rp.arr 0 rp.size)))
                  | _, _ => none
                match merged with
                | none => none
                | some st1 =>
                  -- remove the right node's entry from the parent: shift
                  -- left over its slot; NOTE the source never decrements
                  -- the parent's size here
                  let idx2 := findChildIdxFrom1 parentPg.arr parentPg.size rightPage.pid
                  let parent' := { parentPg with arr := shiftLeft parentPg.arr idx2 (parentPg.size - 1) }
                  let st2 := writePage st1 parentId (.internal parent')
                  some (deletePageB st2 rightId)
      | _ => none

/-- `BPlusTree::RemoveInternal`: descend to the leaf, remove on exact match
(absent key ⇒ plain return), then run the underflow handling on the way
back up. -/
def removeInternalB (fuel : Nat) (st : BPT) (pageId key : Int) : Option BPT :=
  match fuel with
  | 0 => none
  | fuel + 1 =>
    match fetchPage st pageId with
    | none => none
    | some (.leaf l) =>
        let (ok, l') := removeFromLeaf l key
        if !ok then some st
        else handleUnderflow (writePage st pageId (.leaf l')) pageId
    | some (.internal p) =>
        match removeInternalB fuel st (lowerBoundInternal p key).2 key with
        | none => none
        | some st1 => handleUnderflow st1 pageId

/-- `BPlusTree::Remove`: no-op on an empty tree. -/
def removeB (fuel : Nat) (st : BPT) (key : Int) : Option BPT :=
  if st.root = INVALID_PAGE_ID then some st
  else removeInternalB fuel st st.root key

/-! ### The per-page helpers of `b_plus_tree_leaf_page.cpp`

These are the node-level helpers (`BPlusTreeLeafPage::LowerBound` /
`::Remove`), distinct from the tree-level `RemoveFromLeaf` above. -/

/-- Downward scan of `BPlusTreeLeafPage::LowerBound`. -/
def leafPageLowerBoundAux (arr : List Entry) (key : Int) : Nat → Option Nat
  | 0 => if compareKey key (arr.getD 0 (0, 0)).1 ≥ 0 then some 0 else none
  | i + 1 =>
      if compareKey key (arr.getD (i + 1) (0, 0)).1 ≥ 0 then some (i + 1)
      else leafPageLowerBoundAux arr key i

/-- `BPlusTreeLeafPage::LowerBound`: scan from `size-1` down to 0, return
the first (largest) index with `key ≥ array_[i].first`; `-1` (`none`) when
every key exceeds `key`. -/
def leafPageLowerBound (page : LeafPg) (key : Int) : Option Nat :=
  if page.size = 0 then none
  else leafPageLowerBoundAux page.arr key (page.size - 1)

/-- `BPlusTreeLeafPage::Remove`: locate the slot via `LowerBound`, shift the
following entries left, decrement the size; `false` when `LowerBound`
reports `-1`. Note the source performs no exact-match check on the located
slot. -/
def leafPageRemove (page : LeafPg) (key : Int) : Bool × LeafPg :=
  match leafPageLowerBound page key with
  | none => (false, page)
  | some idx =>
      (true, { page with arr := shiftLeft page.arr idx (page.size - 1), size := page.size - 1 })

end BusTub

/-! ## LRU-K replacer (`lru_k_replacer.cpp`)

Embeds the scan-based variant of the replacer (the one whose `Evict` walks
all frames computing backward K-distances). Frame ids are `Nat`; the
source's validity check `frame_id < static_cast<int>(replacer_size_)` only
enforces the upper bound. Thrown `std::invalid_argument` is modelled as
`Except.error`. -/

namespace LRUK

/-- The literal `1e9` used by `Evict` both as the initial victim id and as
the sentinel "infinite distance" marker. -/
def BILLION : Nat := 1000000000

/-- Replacer state: per-frame access history (most recent first, trimmed to
`k` entries), `allocated` and `evictable` flags, the evictable-population
count `curr_size_` and the logical clock `current_timestamp_`. -/
structure Rep where
  k : Nat
  numFrames : Nat
  history : List (List Nat)
  allocated : List Bool
  evictable : List Bool
  currSize : Nat
  currentTimestamp : Nat
deriving DecidableEq, Repr

/-- `LRUKReplacer(num_frames, k)`: all vectors sized `num_frames`. -/
def mkRep (numFrames k : Nat) : Rep :=
  { k := k, numFrames := numFrames,
    history := List.replicate numFrames [],
    allocated := List.replicate numFrames false,
    evictable := List.replicate numFrames false,
    currSize := 0, currentTimestamp := 0 }

/-- `history_[i]` (out-of-range reads yield the empty history). -/
def histAt (st : Rep) (i : Nat) : List Nat := st.history.getD i []

/-- `allocated_[i]`. -/
def allocAt (st : Rep) (i : Nat) : Bool := st.allocated.getD i false

/-- `evictable_[i]`. -/
def evicAt (st : Rep) (i : Nat) : Bool := st.evictable.getD i false

/-- `history_[i].back()`: the oldest retained access timestamp. -/
def backAt (st : Rep) (i : Nat) : Nat := (histAt st i).getLastD 0

/-- `IsValidFrameId`: `frame_id < static_cast<int>(replacer_size_)`; only
the upper bound is checked. -/
def isValidFrameId (st : Rep) (fid : Nat) : Bool := fid < st.numFrames

/-- `RecordAccess`: throw on an invalid frame id; allocate on first touch
(non-evictable); push the current timestamp and trim the history to `k`. -/
def recordAccess (st : Rep) (fid : Nat) : Except Unit Rep :=
  if !isValidFrameId st fid then .error ()
  else
    let st1 :=
      if !allocAt st fid then
        { st with allocated := st.allocated.set fid true,
                  evictable := st.evictable.set fid false }
      else st
    let h1 := st1.currentTimestamp :: histAt st1 fid
    let h2 := if h1.length > st1.k then h1.dropLast else h1
    .ok { st1 with history := st1.history.set fid h2,
                   currentTimestamp := st1.currentTimestamp + 1 }

/-- `SetEvictable`: throw on an invalid id; ignore unallocated frames;
adjust `curr_size_` on a transition and store the flag. -/
def setEvictable (st : Rep) (fid : Nat) (b : Bool) : Except Unit Rep :=
  if !isValidFrameId st fid then .error ()
  else if !allocAt st fid then .ok st
  else
    let cs :=
      if !evicAt st fid && b then st.currSize + 1
      else if evicAt st fid && !b then st.currSize - 1
      else st.currSize
    .ok { st with currSize := cs, evictable := st.evictable.set fid b }

/-- `RemoveInternal`: clear the frame's history and flags and decrement
`curr_size_`. -/
def removeInternalR (st : Rep) (fid : Nat) : Rep :=
  { st with history := st.history.set fid [],
            evictable := st.evictable.set fid false,
            allocated := st.allocated.set fid false,
            currSize := st.currSize - 1 }

/-- `Remove`: silently return on an invalid id or an unallocated frame;
throw on a non-evictable frame; else clear the frame. -/
def removeR (st : Rep) (fid : Nat) : Except Unit Rep :=
  if !isValidFrameId st fid || !allocAt st fid then .ok st
  else if !evicAt st fid then .error ()
  else .ok (removeInternalR st fid)

/-- First scan of `Evict`: over allocated evictable frames with a complete
(`size == k`) history, track the maximal `current_timestamp_ - back()`;
on meeting an incomplete history, set the distance to `1e9` and break. -/
def evictScan1 (st : Rep) : List Nat → Nat → Nat → Nat × Nat
  | [], hd, id => (hd, id)
  | i :: rest, hd, id =>
      if !(allocAt st i) || !(evicAt st i) then evictScan1 st rest hd id
      else if (histAt st i).length = st.k then
        let diff := st.currentTimestamp - backAt st i
        if diff > hd then evictScan1 st rest diff i else evictScan1 st rest hd id
      else (BILLION, id)

/-- Second scan of `Evict`: over allocated evictable frames with an
incomplete history, track the minimal `back()` (earliest retained access). -/
def evictScan2 (st : Rep) : List Nat → Nat → Nat → Nat × Nat
  | [], e, id => (e, id)
  | i :: rest, e, id =>
      if !(allocAt st i) || !(evicAt st i) || (histAt st i).length = st.k then
        evictScan2 st rest e id
      else if backAt st i < e then evictScan2 st rest (backAt st i) i
      else evictScan2 st rest e id

/-- `Evict`: `false` (`none`) when `curr_size_ == 0`; otherwise run the two
scans (the second only when the first ended at the `1e9` sentinel), write
the victim id to the out parameter and clear it via `RemoveInternal`. -/
def evict (st : Rep) : Option (Nat × Rep) :=
  if st.currSize = 0 then none
  else
    let r1 := evictScan1 st (List.range st.numFrames) 0 BILLION
    let id :=
      if r1.1 = BILLION then (evictScan2 st (List.range st.numFrames) st.currentTimestamp r1.2).2
      else r1.2
    some (id, removeInternalR st id)

/-- `Size`. -/
def sizeR (st : Rep) : Nat := st.currSize

/-- A frame the eviction policy chooses among: in range, allocated and
evictable. -/
def Cand (st : Rep) (i : Nat) : Prop :=
  i < st.numFrames ∧ allocAt st i = true ∧ evicAt st i = true

instance (st : Rep) (i : Nat) : Decidable (Cand st i) := by
  unfold Cand; infer_instance

/-- "Fewer than K recorded accesses" (the history is trimmed to at most
`k`, so an incomplete history is one whose length differs from `k`). -/
def Incomplete (st : Rep) (i : Nat) : Prop := (histAt st i).length ≠ st.k

instance (st : Rep) (i : Nat) : Decidable (Incomplete st i) := by
  unfold Incomplete; infer_instance

/-- Number of evictable frames. -/
def evictableCount (st : Rep) : Nat := (List.range st.numFrames).countP (fun i => evicAt st i)

/-- Well-formed replacer state: the shapes of reachable states — sized
vectors, `curr_size_` counting the evictable frames, evictable implying
allocated, and every allocated frame having a nonempty history of at most
`k` timestamps all strictly below the current clock. -/
def WFRep (st : Rep) : Prop :=
  st.history.length = st.numFrames ∧
  st.allocated.length = st.numFrames ∧
  st.evictable.length = st.numFrames ∧
  st.currSize = evictableCount st ∧
  (∀ i, i < st.numFrames → evicAt st i = true → allocAt st i = true) ∧
  (∀ i, i < st.numFrames → allocAt st i = true →
    histAt st i ≠ [] ∧ (histAt st i).length ≤ st.k ∧
    ∀ t ∈ histAt st i, t < st.currentTimestamp)

instance (st : Rep) : Decidable (WFRep st) := by
  unfold WFRep; infer_instance

end LRUK

/-! ## Extendible hash table (`extendible_hash_table.cpp`)

Embeds the latched variant (the one whose `InsertInternal` carries a
`resizable` flag). Keys and values are `Nat`; `std::hash` is a function
parameter `hash`. `shared_ptr<Bucket>` aliasing is modelled by indices
into a bucket store: two directory slots alias the same bucket exactly
when they carry the same index. -/

namespace EHT

/-- One bucket: capacity (`size_`), `local depth` and the entry list. -/
structure Bkt where
  cap : Nat
  depth : Nat
  list : List (Nat × Nat)
deriving DecidableEq, Repr

/-- Table state: `global_depth_`, `bucket_size_`, `num_buckets_`, the
directory of bucket indices, and the bucket store. -/
structure Tbl where
  globalDepth : Nat
  bucketSize : Nat
  numBuckets : Nat
  dir : List Nat
  buckets : List Bkt
deriving DecidableEq, Repr

/-- `ExtendibleHashTable(bucket_size)`: one empty bucket at depth 0. -/
def mkTbl (bucketSize : Nat) : Tbl :=
  { globalDepth := 0, bucketSize := bucketSize, numBuckets := 1,
    dir := [0], buckets := [⟨bucketSize, 0, []⟩] }

/-- `IndexOf`: low `global_depth` bits of the hash. -/
def indexOf (hash : Nat → Nat) (st : Tbl) (k : Nat) : Nat :=
  hash k % 2 ^ st.globalDepth

/-- `dir_[j]`. -/
def dirAt (st : Tbl) (j : Nat) : Nat := st.dir.getD j 0

/-- Dereference a bucket index. -/
def bktAt (st : Tbl) (b : Nat) : Bkt := st.buckets.getD b ⟨0, 0, []⟩

/-- Overwrite a bucket in the store (mutation through the shared pointer:
visible from every directory slot carrying this index). -/
def setBkt (st : Tbl) (b : Nat) (bk : Bkt) : Tbl :=
  { st with buckets := st.buckets.set b bk }

/-- `Bucket::Find`. -/
def bktFind (b : Bkt) (k : Nat) : Option Nat :=
  (b.list.find? (fun p => p.1 == k)).map (fun p => p.2)

/-- `Bucket::Remove`: erase the first entry with this key. -/
def bktRemove (b : Bkt) (k : Nat) : Bool × Bkt :=
  if b.list.any (fun p => p.1 == k) then
    (true, { b with list := b.list.eraseP (fun p => p.1 == k) })
  else (false, b)

/-- Modelled from the spec: `Bucket::IsFull` lives in the class header,
which is not among the provided sources; the spec (§4.2) describes a
bucket as "a bounded list of entries", so full means the list has reached
the capacity `size_`. -/
def bktIsFull (b : Bkt) : Bool := b.list.length ≥ b.cap

/-- In-place value update of `Bucket::Insert`'s upsert loop (first match). -/
def upsertList : List (Nat × Nat) → Nat → Nat → List (Nat × Nat)
  | [], _, _ => []
  | p :: rest, k, v => if p.1 == k then (p.1, v) :: rest else p :: upsertList rest k v

/-- `Bucket::Insert`: refuse when full (checked first, even for a present
key); update in place on a match; else append. -/
def bktInsert (b : Bkt) (k v : Nat) : Bool × Bkt :=
  if bktIsFull b then (false, b)
  else if b.list.any (fun p => p.1 == k) then (true, { b with list := upsertList b.list k v })
  else (true, { b with list := b.list ++ [(k, v)] })

/-- `Find`. -/
def findE (hash : Nat → Nat) (st : Tbl) (k : Nat) : Option Nat :=
  bktFind (bktAt st (dirAt st (indexOf hash st k))) k

/-- `Remove`. -/
def removeE (hash : Nat → Nat) (st : Tbl) (k : Nat) : Bool × Tbl :=
  let bid := dirAt st (indexOf hash st k)
  let (ok, b') := bktRemove (bktAt st bid) k
  (ok, setBkt st bid b')

/-- Upward walk of the split:
`for (i = index; i < (1 << global_depth); i += step, turn = !turn)`
assigning the old bucket on even steps and the fresh one on odd steps.
`gas` bounds the iterations (any value ≥ the directory size works since
`step ≥ 1`). -/
def walkUp (d : List Nat) (oldB newB step bound i : Nat) (turn : Bool) (gas : Nat) :
    List Nat :=
  match gas with
  | 0 => d
  | gas + 1 =>
      if i < bound then
        walkUp (d.set i (if turn then newB else oldB)) oldB newB step bound (i + step) (!turn) gas
      else d

/-- Downward walk: `for (i = index; i >= 0; i -= step, turn = !turn)` —
the loop body runs for `i = index, index-step, …` down to the last
non-negative value. -/
def walkDown (d : List Nat) (oldB newB step i : Nat) (turn : Bool) (gas : Nat) :
    List Nat :=
  match gas with
  | 0 => d
  | gas + 1 =>
      let d' := d.set i (if turn then newB else oldB)
      if step ≤ i then walkDown d' oldB newB step (i - step) (!turn) gas else d'

/-- Redistribution loop: for each item of the split bucket, remove it from
the old bucket then insert it through the (rewritten) directory. -/
def redistribute (hash : Nat → Nat) (st : Tbl) (oldBid : Nat) :
    List (Nat × Nat) → Tbl
  | [] => st
  | p :: rest =>
      let st1 := setBkt st oldBid (bktRemove (bktAt st oldBid) p.1).2
      let tgt := dirAt st1 (indexOf hash st1 p.1)
      let st2 := setBkt st1 tgt (bktInsert (bktAt st1 tgt) p.1 p.2).2
      redistribute hash st2 oldBid rest

/-- First half of the split sequence of `InsertInternal`, on the
(possibly already doubled) table `st1` and the directory slot `index` of
the full bucket: install a fresh empty bucket of the same local depth and
rewrite the directory by the two alternating walks from `index`. -/
def splitInstall (st1 : Tbl) (index : Nat) : Tbl :=
  let oldBid := dirAt st1 index
  let oldDepth := (bktAt st1 oldBid).depth
  let newBid := st1.buckets.length
  let st2 := { st1 with buckets := st1.buckets ++ [(⟨st1.bucketSize, oldDepth, []⟩ : Bkt)] }
  let step := 2 ^ oldDepth
  let bound := 2 ^ st2.globalDepth
  let dir1 := walkUp st2.dir oldBid newBid step bound index false (bound + 1)
  let dir2 := walkDown dir1 oldBid newBid step index false (index + 1)
  { st2 with dir := dir2 }

/-- Full split sequence of `InsertInternal`: install the sibling bucket
and rewrite the directory, redistribute the old bucket's entries through
the new directory, then bump both local depths and the bucket count. -/
def splitAt (hash : Nat → Nat) (st1 : Tbl) (index : Nat) : Tbl :=
  let oldBid := dirAt st1 index
  let newBid := st1.buckets.length
  let st3 := splitInstall st1 index
  let items := (bktAt st3 (dirAt st3 index)).list
  let st4 := redistribute hash st3 oldBid items
  let st5 := setBkt st4 oldBid { bktAt st4 oldBid with depth := (bktAt st4 oldBid).depth + 1 }
  let st6 := setBkt st5 newBid { bktAt st5 newBid with depth := (bktAt st5 newBid).depth + 1 }
  { st6 with numBuckets := st6.numBuckets + 1 }

/-- `InsertInternal(key, value, resizable)`: try the bucket insert; a full
bucket either fails (`resizable = false`) or triggers the split sequence
(possibly doubling the directory) and a retry. `none` only on fuel
exhaustion. -/
def insertInternalE (hash : Nat → Nat) (fuel : Nat) (st : Tbl) (k v : Nat)
    (resizable : Bool) : Option (Bool × Tbl) :=
  match fuel with
  | 0 => none
  | fuel + 1 =>
    let index := indexOf hash st k
    let bid := dirAt st index
    let (ok, b') := bktInsert (bktAt st bid) k v
    if ok then some (true, setBkt st bid b')
    else if !resizable then some (false, st)
    else
      -- double the directory when the bucket is at full depth
      let st1 :=
        if (bktAt st bid).depth = st.globalDepth then
          { st with globalDepth := st.globalDepth + 1, dir := st.dir ++ st.dir }
        else st
      insertInternalE hash fuel (splitAt hash st1 index) k v resizable

/-- `Insert`: non-resizable attempt under the shared latch, then the
resizable one under the exclusive latch. -/
def insertE (hash : Nat → Nat) (fuel : Nat) (st : Tbl) (k v : Nat) : Option Tbl :=
  match insertInternalE hash fuel st k v false with
  | none => none
  | some (true, st') => some st'
  | some (false, _) =>
      match insertInternalE hash fuel st k v true with
      | none => none
      | some (_, st') => some st'

/-- Well-formed table: this is the extendible-hashing representation
invariant every reachable table satisfies —
the directory has `2^global_depth` slots, each naming a stored bucket of
local depth at most `global_depth`; two slots share a bucket exactly when
they agree on the bucket's low `depth` bits; a bucket's entries hash to its
slots' low-bits pattern; keys within a bucket are distinct; and every
bucket has capacity `bucket_size_` with at most that many entries. -/
def WFE (hash : Nat → Nat) (st : Tbl) : Prop :=
  st.dir.length = 2 ^ st.globalDepth ∧
  (∀ j, j < st.dir.length → dirAt st j < st.buckets.length) ∧
  (∀ j, j < st.dir.length → (bktAt st (dirAt st j)).depth ≤ st.globalDepth) ∧
  (∀ j, j < st.dir.length → ∀ j', j' < st.dir.length →
    j % 2 ^ (bktAt st (dirAt st j)).depth = j' % 2 ^ (bktAt st (dirAt st j)).depth →
    dirAt st j' = dirAt st j) ∧
  (∀ j, j < st.dir.length → ∀ j', j' < st.dir.length → dirAt st j' = dirAt st j →
    j % 2 ^ (bktAt st (dirAt st j)).depth = j' % 2 ^ (bktAt st (dirAt st j)).depth) ∧
  (∀ j, j < st.dir.length → ∀ p ∈ (bktAt st (dirAt st j)).list,
    hash p.1 % 2 ^ (bktAt st (dirAt st j)).depth = j % 2 ^ (bktAt st (dirAt st j)).depth) ∧
  (∀ j, j < st.dir.length → (bktAt st (dirAt st j)).list.Pairwise (fun p q => p.1 ≠ q.1)) ∧
  (∀ j, j < st.dir.length → (bktAt st (dirAt st j)).cap = st.bucketSize) ∧
  (∀ j, j < st.dir.length → (bktAt st (dirAt st j)).list.length ≤ (bktAt st (dirAt st j)).cap)

instance (hash : Nat → Nat) (st : Tbl) : Decidable (WFE hash st) := by
  unfold WFE; infer_instance

/-- Concrete table (bucket size 1, identity hash) holding key 0: the next
insert of key 1 fills the bucket, doubles the directory and splits. -/
def eht7Start : Tbl :=
  { globalDepth := 0, bucketSize := 1, numBuckets := 1,
    dir := [0], buckets := [⟨1, 0, [(0, 10)]⟩] }

/-- The table produced by `Insert(1, 11)` on `eht7Start` (one doubling,
one split, then the retry lands in the fresh bucket). -/
def eht7End : Tbl :=
  { globalDepth := 1, bucketSize := 1, numBuckets := 2,
    dir := [0, 1], buckets := [⟨1, 1, [(0, 10)]⟩, ⟨1, 1, [(1, 11)]⟩] }

end EHT

/-! ## Buffer pool manager (`buffer_pool_manager_instance.cpp`)

Embeds the per-frame-latch variant (the one that allocates the page id
before acquiring a frame). The page-table collaborator
(`ExtendibleHashTable<page_id_t, frame_id_t>`) is modelled through its map
interface; page bytes are abstracted to a single `Int`. -/

namespace BPMgr

/-- One frame's metadata (`Page`): current page id, pin count, dirty flag
and the (abstracted) byte content. -/
structure FrameP where
  pageId : Int
  pinCount : Nat
  isDirty : Bool
  data : Int
deriving DecidableEq, Repr

/-- A freshly constructed `Page`. -/
def frameInit : FrameP := { pageId := -1, pinCount := 0, isDirty := false, data := 0 }

/-- Buffer pool state. -/
structure BPM where
  poolSize : Nat
  pages : List FrameP
  pageTable : List (Int × Nat)
  replacer : LRUK.Rep
  freeList : List Nat
  nextPageId : Int
  disk : List (Int × Int)
deriving DecidableEq, Repr

/-- `BufferPoolManagerInstance(pool_size, k)`: all frames free. -/
def mkBPM (poolSize k : Nat) : BPM :=
  { poolSize := poolSize, pages := List.replicate poolSize frameInit,
    pageTable := [], replacer := LRUK.mkRep poolSize k,
    freeList := List.range poolSize, nextPageId := 0, disk := [] }

/-- `page_table_->Find`. -/
def ptFind (pt : List (Int × Nat)) (pid : Int) : Option Nat :=
  (pt.find? (fun e => e.1 == pid)).map (fun e => e.2)

/-- `page_table_->Insert` (upsert). -/
def ptInsert (pt : List (Int × Nat)) (pid : Int) (fid : Nat) : List (Int × Nat) :=
  if pt.any (fun e => e.1 == pid) then
    pt.map (fun e => if e.1 == pid then (pid, fid) else e)
  else pt ++ [(pid, fid)]

/-- `page_table_->Remove`. -/
def ptRemove (pt : List (Int × Nat)) (pid : Int) : List (Int × Nat) :=
  pt.filter (fun e => !(e.1 == pid))

/-- `AllocatePage`: `return next_page_id_++;`. -/
def allocatePage (st : BPM) : Int × BPM :=
  (st.nextPageId, { st with nextPageId := st.nextPageId + 1 })

/-- `disk_manager_->WritePage`. -/
def diskWrite (st : BPM) (pid : Int) (d : Int) : BPM :=
  if st.disk.any (fun e => e.1 == pid) then
    { st with disk := st.disk.map (fun e => if e.1 == pid then (pid, d) else e) }
  else { st with disk := st.disk ++ [(pid, d)] }

/-- Discharge an `Except` from the replacer; in `NewPgImp` the frame id is
always below `pool_size = num_frames`, so no exception can actually occur. -/
def repOk (st : LRUK.Rep) : Except Unit LRUK.Rep → LRUK.Rep
  | .ok r => r
  | .error _ => st

/-- Frame installation epilogue shared by the `NewPgImp` paths: record the
access, pin the frame non-evictable, insert the directory entry, flush the
victim's bytes when dirty, then reset the frame for the new page with
`pin_count = 1`. -/
def installFrame (st : BPM) (pid : Int) (fid : Nat) : BPM :=
  let rep1 := repOk st.replacer (LRUK.recordAccess st.replacer fid)
  let rep2 := repOk rep1 (LRUK.setEvictable rep1 fid false)
  let pt1 := ptInsert st.pageTable pid fid
  let fr := st.pages.getD fid frameInit
  let st1 := if fr.isDirty then diskWrite st fr.pageId fr.data else st
  { st1 with
    pages := st1.pages.set fid { pageId := pid, pinCount := 1, isDirty := false, data := 0 },
    replacer := rep2, pageTable := pt1 }

/-- `NewPgImp`: allocate the page id first (`*page_id = AllocatePage()`),
then pop the free list or evict; `nullptr` (`none`) when neither yields a
frame — the already-allocated id is consumed either way. -/
def newPgImp (st : BPM) : Option Int × BPM :=
  let (pid, st1) := allocatePage st
  match st1.freeList with
  | fid :: rest =>
      let st2 := { st1 with freeList := rest }
      (some pid, installFrame st2 pid fid)
  | [] =>
      if LRUK.sizeR st1.replacer > 0 then
        match LRUK.evict st1.replacer with
        | some (fid, rep') =>
            let victim := st1.pages.getD fid frameInit
            let st2 := { st1 with replacer := rep',
                                  pageTable := ptRemove st1.pageTable victim.pageId }
            (some pid, installFrame st2 pid fid)
        | none => (none, st1)
      else (none, st1)

/-- `UnpinPgImp`: `false` when the page is not resident or its pin count is
already zero; otherwise decrement the pin count, mark the frame evictable
when it reaches zero, and make dirtiness sticky
(`if (!is_dirty_) is_dirty_ = is_dirty;`). -/
def unpinPgImp (st : BPM) (pid : Int) (dirty : Bool) : Except Unit (Bool × BPM) :=
  match ptFind st.pageTable pid with
  | none => .ok (false, st)
  | some fid =>
    let fr := st.pages.getD fid frameInit
    if fr.pinCount = 0 then .ok (false, st)
    else
      let fr1 := { fr with pinCount := fr.pinCount - 1 }
      let repE : Except Unit LRUK.Rep :=
        if fr1.pinCount = 0 then LRUK.setEvictable st.replacer fid true else .ok st.replacer
      match repE with
      | .error e => .error e
      | .ok rep' =>
          let fr2 := if !fr1.isDirty then { fr1 with isDirty := dirty } else fr1
          .ok (true, { st with pages := st.pages.set fid fr2, replacer := rep' })

/-- Well-formedness used by the unpin contract: this is what every reachable
buffer pool satisfies — the replacer's vectors are sized `pool_size`, and a
resident frame id is in range and was allocated in the replacer by the
`RecordAccess` of the fetch/new that installed it. -/
def WFBpm (st : BPM) : Prop :=
  st.replacer.evictable.length = st.replacer.numFrames ∧
  ∀ e ∈ st.pageTable, e.2 < st.replacer.numFrames ∧ LRUK.allocAt st.replacer e.2 = true

instance (st : BPM) : Decidable (WFBpm st) := by
  unfold WFBpm; infer_instance

end BPMgr

/-! ## Concrete scenario states for the B+ tree claims -/

namespace BusTub

/-- Insert and require success (used to chain scenario states; `none` if
the insert reported a duplicate or crashed). -/
def insertReq (fuel : Nat) (st : BPT) (k v : Int) : Option BPT :=
  match insertB fuel st k v with
  | some (true, st') => some st'
  | _ => none

/-- Tree after inserting keys 1..4 (values 11..14) into an empty tree with
`leaf_max_size = internal_max_size = 4`: inserting 4 splits the root leaf,
yielding root page 2 over leaves 1 (`{1,2}`) and 3 (`{3,4}`). -/
def treeAfterInserts : Option BPT :=
  (insertReq 10 (emptyBPT 4 4) 1 11).bind fun s1 =>
  (insertReq 10 s1 2 12).bind fun s2 =>
  (insertReq 10 s2 3 13).bind fun s3 =>
  insertReq 10 s3 4 14

/-- The same tree after `Remove(4)`: leaf 3 underflows and merges into leaf
1, page 3 is deleted. -/
def treeAfterRemove4 : Option BPT :=
  treeAfterInserts.bind fun s => removeB 10 s 4

/-- Singleton tree (`Insert(1)`) followed by `Remove(1)`. -/
def treeAfterEmptying : Option BPT :=
  (insertReq 10 (emptyBPT 4 4) 1 11).bind fun s => removeB 10 s 1

/-- Does an internal page hold an entry (within its live size) whose child
page id is `c`? -/
def internalHasChild (p : BPage) (c : Int) : Bool :=
  match p with
  | .internal ip => (List.range ip.size).any (fun i => (ip.arr.getD i (0, 0)).2 == c)
  | .leaf _ => false

/-- Leaf-page literal builder (entries padded to the physical capacity 6,
i.e. `max_size = 4`). -/
def mkLeafPage (pid parent : Int) (sz : Nat) (nx : Int) (es : List Entry) : BPage :=
  .leaf { pid := pid, parent := parent, maxSize := 4, size := sz, next := nx,
          arr := es ++ List.replicate (6 - es.length) ((0 : Int), (0 : Int)) }

/-- Internal-page literal builder (`max_size = 3`, capacity 5). -/
def mkInternalPage (pid parent : Int) (sz : Nat) (es : List Entry) : BPage :=
  .internal { pid := pid, parent := parent, maxSize := 3, size := sz,
              arr := es ++ List.replicate (5 - es.length) ((0 : Int), (0 : Int)) }

/-- A depth-3 tree (`leaf_max_size = 4`, `internal_max_size = 3`) whose
internal node 3 is below `min_size` while its left sibling (internal node
2) is above it, so that `Remove(21)` runs the internal borrow-from-left
branch. All pages satisfy the header invariants (keys sorted, children's
`parent_page_id` correct, separator keys consistent). -/
def borrowScenarioState : BPT :=
  { root := 1, nextPid := 8, leafMax := 4, internalMax := 3,
    store := [ (1, mkInternalPage 1 (-1) 2 [(0, 2), (20, 3)]),
               (2, mkInternalPage 2 1 3 [(0, 4), (5, 5), (10, 6)]),
               (3, mkInternalPage 3 1 1 [(20, 7)]),
               (4, mkLeafPage 4 2 2 5 [(0, 100), (1, 101)]),
               (5, mkLeafPage 5 2 2 6 [(5, 105), (6, 106)]),
               (6, mkLeafPage 6 2 2 7 [(10, 110), (11, 111)]),
               (7, mkLeafPage 7 3 3 (-1) [(20, 120), (21, 121), (22, 122)]) ] }

/-- The state above after `Remove(21)`. -/
def borrowScenarioAfter : Option BPT := removeB 12 borrowScenarioState 21

/-- Leaf page `[(1,10), (3,30)]` (`max_size = 4`), used against the
leaf-page `Remove` helper. -/
def sortedLeaf13 : LeafPg :=
  { pid := 9, parent := -1, maxSize := 4, size := 2, next := -1,
    arr := [(1, 10), (3, 30), (0, 0), (0, 0), (0, 0), (0, 0)] }

end BusTub

/-! ## Concrete witness states -/

namespace LRUK

/-- A one-frame replacer whose frame 0 is allocated but not evictable
(state after `RecordAccess(0)`). -/
def oneFramePinned : Rep :=
  { k := 2, numFrames := 1, history := [[0]], allocated := [true],
    evictable := [false], currSize := 0, currentTimestamp := 1 }

/-- A two-frame replacer with both frames allocated and evictable: frame 0
has an incomplete history `[1]`, frame 1 a complete one `[2, 0]` (k = 2). -/
def twoFrameState : Rep :=
  { k := 2, numFrames := 2, history := [[1], [2, 0]], allocated := [true, true],
    evictable := [true, true], currSize := 2, currentTimestamp := 3 }

end LRUK

namespace BPMgr

/-- A one-frame pool holding page 5 pinned once (state after `NewPage`). -/
def onePagePinned : BPM :=
  { poolSize := 1,
    pages := [{ pageId := 5, pinCount := 1, isDirty := false, data := 0 }],
    pageTable := [(5, 0)], replacer := LRUK.oneFramePinned,
    freeList := [], nextPageId := 6, disk := [] }

end BPMgr

/-! ## Shared list lemmas -/

theorem getD_set_self {α : Type _} (l : List α) (i : Nat) (h : i < l.length) (b d : α) :
    (l.set i b).getD i d = b := by
  simp [List.getD, List.getElem?_set, h]

theorem getD_set_ne {α : Type _} (l : List α) (i j : Nat) (hne : j ≠ i) (b d : α) :
    (l.set i b).getD j d = l.getD j d := by
  simp [List.getD, List.getElem?_set, Ne.symm hne]

theorem getD_default_of_le {α : Type _} (l : List α) (i : Nat) (h : l.length ≤ i) (d : α) :
    l.getD i d = d := by
  simp [List.getD, List.getElem?_eq_none h]

/-! ## Claim theorems -/

open BusTub in
/-- C1: the claim states that immediately after `Insert(k, v)` returns true
a `GetValue(k)` yields exactly `v`, and immediately after `Remove(k)` a
`GetValue(k)` reports not-found. The insert half holds on the scenario
below, but the remove half fails: with `leaf/internal max_size = 4`, after
inserting keys 1..4 (which splits the root leaf) and removing key 4, the
merge leaves the parent's entry for the deleted leaf (page 3) in place, so
`GetValue(4)` descends into the deleted page (`none`, i.e. a fetch of a
page id no longer in the buffer pool — the C++ code reads freed disk
bytes) instead of returning not-found. -/
theorem bptRoundTripBroken :
    treeAfterRemove4.isSome = true ∧
    (treeAfterInserts.bind fun st => getValue 10 st 4) = some (some 14) ∧
    (treeAfterRemove4.bind fun st => getValue 10 st 4) = none := by
  decide

open BusTub in
/-- C2: the claim states that removing the last key resets `root_page_id`
to `INVALID_PAGE_ID` (and that an internal root of size 1 collapses).
`Remove` has no root-collapse or reset logic at all: after `Insert(1)` then
`Remove(1)` the tree is fully empty (the root is a leaf of size 0) yet
`root_page_id` still names page 1. -/
theorem bptRootIdNeverReset :
    (treeAfterEmptying.map fun st => st.root) = some 1 ∧
    ((treeAfterEmptying.bind fun st => fetchPage st st.root).map BPage.size) = some 0 ∧
    (1 : Int) ≠ INVALID_PAGE_ID := by
  decide

open BusTub in
/-- C3: the claim states that after a merge the parent's size is one less
than before and the parent holds no entry for the merged-away right node.
In the insert-1..4-remove-4 scenario the parent (root page 2) has size 2
both before and after the merge, and it still holds an entry whose child
page id is the merged-away page 3 — only the deletion of page 3 itself
(return of the frame to the free pool) actually happens. -/
theorem bptMergeParentStale :
    ((treeAfterInserts.bind fun st => fetchPage st 2).map BPage.size) = some 2 ∧
    ((treeAfterRemove4.bind fun st => fetchPage st 2).map BPage.size) = some 2 ∧
    ((treeAfterRemove4.bind fun st => fetchPage st 2).map fun p => internalHasChild p 3)
      = some true ∧
    (treeAfterRemove4.bind fun st => fetchPage st 3) = none := by
  decide

open BusTub in
/-- C4: the claim states that after any mutation each child's
`parent_page_id` equals the page id of the internal node holding its
entry. Running `Remove(21)` on `borrowScenarioState` drives the internal
borrow-from-left branch: leaf 6's entry moves into internal node 3, but
leaf 6's `parent_page_id` still names node 2 (the branch calls `SetPageId`
instead of `SetParentPageId` — it also clobbers leaf 7's page id field to
3). -/
theorem bptBorrowChildParentStale :
    ((borrowScenarioAfter.bind fun st => fetchPage st 3).map fun p => internalHasChild p 6)
      = some true ∧
    ((borrowScenarioAfter.bind fun st => fetchPage st 6).map BPage.parent) = some 2 ∧
    ((borrowScenarioAfter.bind fun st => fetchPage st 7).map BPage.pid) = some 3 ∧
    ((2 : Int) ≠ 3) := by
  decide

open BusTub in
/-- C5: the claim states that the leaf-page `Remove(k)` helper removes an
entry only on an exact match and leaves the leaf unchanged (returning
false) when `k` is absent. On the strictly-increasing leaf `[(1,10),(3,30)]`
with the absent key 2, the helper locates the lower-bound slot (key 1),
removes that entry and returns true: the leaf ends as `[(3,30)]`. -/
theorem leafPageRemoveNotExact :
    ((List.range sortedLeaf13.size).all fun i => !((sortedLeaf13.arr.getD i (0, 0)).1 == 2))
      = true ∧
    (leafPageRemove sortedLeaf13 2).1 = true ∧
    (leafPageRemove sortedLeaf13 2).2.size = 1 ∧
    (leafPageRemove sortedLeaf13 2).2.arr.getD 0 (0, 0) = (3, 30) := by
  decide

open LRUK in
/-- C9 counterexample: the claim states that `Remove` on a frame id outside
`[0, num_frames)` signals an invalid-argument failure; on a one-frame
replacer, `Remove(5)` returns silently with the state unchanged instead of
throwing. -/
theorem lrukRemoveSilentOnInvalidId :
    removeR (mkRep 1 2) 5 = Except.ok (mkRep 1 2) := by
  rfl

open LRUK in
/-- C9 (amended): for frame ids at or above `num_frames`, `RecordAccess`
and `SetEvictable` throw `std::invalid_argument` while `Remove` returns
silently with no effect (as for any unallocated frame); `Remove` on a
valid, allocated, non-evictable frame throws. (The validity check
`frame_id < (int)replacer_size_` enforces only the upper bound.) -/
theorem lrukInvalidArgPolicy (st : Rep) (fid : Nat) (b : Bool) :
    (st.numFrames ≤ fid →
      recordAccess st fid = .error () ∧ setEvictable st fid b = .error () ∧
      removeR st fid = .ok st) ∧
    (fid < st.numFrames → allocAt st fid = true → evicAt st fid = false →
      removeR st fid = .error ()) := by
  constructor
  · intro hge
    have hval : isValidFrameId st fid = false := by
      simp [isValidFrameId, Nat.not_lt.mpr hge]
    refine ⟨?_, ?_, ?_⟩
    · simp [recordAccess, hval]
    · simp [setEvictable, hval]
    · simp [removeR, hval]
  · intro hlt halloc hev
    have hval : isValidFrameId st fid = true := by
      simp [isValidFrameId, hlt]
    simp [removeR, hval, halloc, hev]

open LRUK in
/-- C9 witness: instantiates the amended policy at `fid = 7` on a one-frame
replacer, and at the allocated non-evictable frame 0 of `oneFramePinned`. -/
theorem lrukInvalidArgPolicy_witness :
    recordAccess (mkRep 1 2) 7 = .error () ∧ removeR oneFramePinned 0 = .error () :=
  ⟨((lrukInvalidArgPolicy (mkRep 1 2) 7 true).1 (by decide)).1,
   (lrukInvalidArgPolicy oneFramePinned 0 true).2 (by decide) (by decide) (by decide)⟩

open BPMgr in
/-- The `NewPgImp` epilogue never touches the allocator. -/
theorem installFrame_nextPageId (st : BPM) (pid : Int) (fid : Nat) :
    (installFrame st pid fid).nextPageId = st.nextPageId := by
  simp only [installFrame, diskWrite]
  split
  · split <;> rfl
  · rfl

open BPMgr in
/-- `NewPgImp` either fails (`none`) or returns exactly the allocated id,
and the allocator advances by one either way. -/
theorem newPgImp_alloc (st : BPM) :
    ((newPgImp st).1 = none ∨ (newPgImp st).1 = some st.nextPageId) ∧
    (newPgImp st).2.nextPageId = st.nextPageId + 1 := by
  unfold newPgImp allocatePage
  dsimp only
  cases hfl : st.freeList with
  | cons f r =>
      exact ⟨Or.inr rfl, installFrame_nextPageId _ _ _⟩
  | nil =>
      dsimp only
      split
      · rcases hev : LRUK.evict st.replacer with _ | ⟨fid, rep'⟩
        · simp [hev]
        · simp [hev, installFrame_nextPageId]
      · exact ⟨Or.inl rfl, rfl⟩

open BPMgr in
/-- C10: every `NewPgImp` call advances the page-id allocator exactly once
— `*page_id = AllocatePage()` runs before the frame-acquisition branch —
so a failed call (null return) still consumes an id, a successful call
returns the pre-call `next_page_id_`, and a success following a failure
returns an id two past the one before the failure (not consecutive). -/
theorem bpmNewPageConsumesId (st : BPM) :
    (newPgImp st).2.nextPageId = st.nextPageId + 1 ∧
    (∀ pid, (newPgImp st).1 = some pid → pid = st.nextPageId) ∧
    ((newPgImp st).1 = none → ∀ pid',
       (newPgImp (newPgImp st).2).1 = some pid' → pid' = st.nextPageId + 1) := by
  obtain ⟨h1, h2⟩ := newPgImp_alloc st
  refine ⟨h2, ?_, ?_⟩
  · intro pid hp
    rcases h1 with h | h
    · rw [h] at hp; exact absurd hp (by simp)
    · rw [h] at hp; exact (Option.some.inj hp).symm
  · intro _ pid' hp'
    obtain ⟨h1', h2'⟩ := newPgImp_alloc (newPgImp st).2
    rcases h1' with h | h
    · rw [h] at hp'; exact absurd hp' (by simp)
    · rw [h] at hp'; rw [h2] at hp'; exact (Option.some.inj hp').symm

open BPMgr in
/-- C10 witness: on a fresh one-frame pool, `NewPgImp` succeeds and the
returned id is the pre-call `next_page_id_` (0). -/
theorem bpmNewPageConsumesId_witness :
    (newPgImp (mkBPM 1 2)).1 = some 0 ∧ (0 : Int) = (mkBPM 1 2).nextPageId :=
  ⟨rfl, (bpmNewPageConsumesId (mkBPM 1 2)).2.1 0 rfl⟩

open BPMgr in
/-- A resident page's frame id comes from a page-table entry. -/
theorem ptFind_mem {pt : List (Int × Nat)} {pid : Int} {fid : Nat}
    (h : ptFind pt pid = some fid) : ∃ e ∈ pt, e.2 = fid := by
  unfold ptFind at h
  rcases Option.map_eq_some'.mp h with ⟨e, he, hef⟩
  exact ⟨e, List.mem_of_find?_eq_some he, hef⟩

open BPMgr in
/-- C8: `UnpinPgImp(id, dirty)` returns false with the pool unchanged when
the page is not resident or already unpinned; otherwise it returns true,
decrements the pin count, marks the frame evictable exactly when the pin
count reaches zero (the replacer is untouched otherwise), ORs the dirty
argument into `is_dirty` (sticky dirtiness), and changes nothing else. -/
theorem bpmUnpinContract (st : BPM) (pid : Int) (d : Bool) (hwf : WFBpm st) :
    (ptFind st.pageTable pid = none → unpinPgImp st pid d = .ok (false, st)) ∧
    (∀ fid, ptFind st.pageTable pid = some fid →
      ((st.pages.getD fid frameInit).pinCount = 0 →
        unpinPgImp st pid d = .ok (false, st)) ∧
      ((st.pages.getD fid frameInit).pinCount ≠ 0 →
        ∃ st', unpinPgImp st pid d = .ok (true, st') ∧
          (st'.pages.getD fid frameInit).pinCount
            = (st.pages.getD fid frameInit).pinCount - 1 ∧
          (st'.pages.getD fid frameInit).isDirty
            = ((st.pages.getD fid frameInit).isDirty || d) ∧
          ((st.pages.getD fid frameInit).pinCount - 1 = 0 →
            LRUK.evicAt st'.replacer fid = true) ∧
          ((st.pages.getD fid frameInit).pinCount - 1 ≠ 0 →
            st'.replacer = st.replacer) ∧
          st'.pageTable = st.pageTable ∧ st'.freeList = st.freeList ∧
          st'.nextPageId = st.nextPageId ∧ st'.disk = st.disk ∧
          (∀ j, j ≠ fid → st'.pages.getD j frameInit = st.pages.getD j frameInit))) := by
  obtain ⟨hlen, htab⟩ := hwf
  constructor
  · intro hnone
    unfold unpinPgImp
    rw [hnone]
  · intro fid hfind
    have hfr : fid < st.replacer.numFrames ∧ LRUK.allocAt st.replacer fid = true := by
      obtain ⟨e, hmem, hef⟩ := ptFind_mem hfind
      exact hef ▸ htab e hmem
    constructor
    · intro hpin0
      unfold unpinPgImp
      rw [hfind]
      dsimp only
      rw [if_pos hpin0]
    · intro hpin
      have hplen : fid < st.pages.length := by
        by_contra hge
        exact hpin (by rw [getD_default_of_le _ _ (Nat.le_of_not_lt hge)]; rfl)
      have hsetE : ∀ b, LRUK.setEvictable st.replacer fid b =
          .ok { st.replacer with
                currSize := if !(LRUK.evicAt st.replacer fid) && b
                            then st.replacer.currSize + 1
                            else if LRUK.evicAt st.replacer fid && !b
                            then st.replacer.currSize - 1 else st.replacer.currSize,
                evictable := st.replacer.evictable.set fid b } := by
        intro b
        unfold LRUK.setEvictable
        rw [if_neg (by simp [LRUK.isValidFrameId, hfr.1]), if_neg (by simp [hfr.2])]
      unfold unpinPgImp
      rw [hfind]
      dsimp only
      rw [if_neg hpin]
      by_cases hone : (st.pages.getD fid frameInit).pinCount - 1 = 0
      · rw [if_pos hone, hsetE]
        refine ⟨_, rfl, ?_, ?_, ?_, ?_, rfl, rfl, rfl, rfl, ?_⟩
        · rw [getD_set_self _ _ hplen]
          split <;> rfl
        · rw [getD_set_self _ _ hplen]
          cases hd : (st.pages.getD fid frameInit).isDirty <;> simp [hd]
        · intro _
          simp only [LRUK.evicAt]
          rw [getD_set_self _ _ (by rw [hlen]; exact hfr.1)]
        · intro h; exact absurd hone h
        · intro j hj
          rw [getD_set_ne _ _ _ hj]
      · rw [if_neg hone]
        refine ⟨_, rfl, ?_, ?_, ?_, ?_, rfl, rfl, rfl, rfl, ?_⟩
        · rw [getD_set_self _ _ hplen]
          split <;> rfl
        · rw [getD_set_self _ _ hplen]
          cases hd : (st.pages.getD fid frameInit).isDirty <;> simp [hd]
        · intro h; exact absurd h hone
        · intro _; rfl
        · intro j hj
          rw [getD_set_ne _ _ _ hj]

open BPMgr in
/-- C8 witness: unpinning the pinned resident page 5 of `onePagePinned`
succeeds. -/
theorem bpmUnpinContract_witness :
    ∃ st', unpinPgImp onePagePinned 5 true = Except.ok (true, st') := by
  obtain ⟨st', h1, _⟩ :=
    ((bpmUnpinContract onePagePinned 5 true (by decide)).2 0 (by rfl)).2 (by decide)
  exact ⟨st', h1⟩

namespace LRUK

theorem getLastD_mem : ∀ (l : List Nat) (d : Nat), l ≠ [] → l.getLastD d ∈ l := by
  intro l
  induction l with
  | nil => intro d h; exact absurd rfl h
  | cons a l ih =>
      intro d _
      cases l with
      | nil => simp
      | cons b t =>
          rw [List.getLastD_cons]
          exact List.mem_cons_of_mem a (ih a (by simp))

theorem back_lt_ts (st : Rep) (hwf : WFRep st) (i : Nat) (hc : Cand st i) :
    backAt st i < st.currentTimestamp := by
  obtain ⟨hlt, halloc, _⟩ := hc
  obtain ⟨hne, _, hts⟩ := hwf.2.2.2.2.2 i hlt halloc
  exact hts _ (getLastD_mem _ _ hne)

theorem hist_le_k (st : Rep) (hwf : WFRep st) (i : Nat) (hc : Cand st i) :
    (histAt st i).length ≤ st.k := by
  obtain ⟨hlt, halloc, _⟩ := hc
  exact (hwf.2.2.2.2.2 i hlt halloc).2.1

/-- Accumulator invariant of the second `Evict` scan (argmin of `back()`
over allocated evictable incomplete frames). -/
theorem evictScan2_spec (st : Rep) (L : List Nat) :
    ∀ e id, (∀ j ∈ L, j < st.numFrames) →
      ((evictScan2 st L e id).1 ≤ e) ∧
      (∀ j ∈ L, Cand st j → Incomplete st j →
        (evictScan2 st L e id).1 ≤ backAt st j) ∧
      (((evictScan2 st L e id).1 = e ∧ (evictScan2 st L e id).2 = id) ∨
        (Cand st (evictScan2 st L e id).2 ∧ Incomplete st (evictScan2 st L e id).2 ∧
         backAt st (evictScan2 st L e id).2 = (evictScan2 st L e id).1 ∧
         (evictScan2 st L e id).1 < e)) := by
  induction L with
  | nil =>
      intro e id _
      exact ⟨Nat.le_refl _, by intro j hj; exact absurd hj (by simp), Or.inl ⟨rfl, rfl⟩⟩
  | cons i rest ih =>
      intro e id hmem
      have hi : i < st.numFrames := hmem i (List.mem_cons_self _ _)
      have hmem' : ∀ j ∈ rest, j < st.numFrames := fun j hj => hmem j (List.mem_cons_of_mem _ hj)
      cases hB : (!(allocAt st i) || !(evicAt st i) || decide ((histAt st i).length = st.k)) with
      | true =>
          -- frame skipped: not allocated/evictable, or complete history
          have hstep : evictScan2 st (i :: rest) e id = evictScan2 st rest e id := by
            simp [evictScan2, hB]
          rw [hstep]
          obtain ⟨h1, h2, h3⟩ := ih e id hmem'
          refine ⟨h1, ?_, h3⟩
          intro j hj hc hinc
          rcases List.mem_cons.mp hj with rfl | hj'
          · exfalso
            obtain ⟨_, ha, he⟩ := hc
            simp [ha, he] at hB
            exact hinc hB
          · exact h2 j hj' hc hinc
      | false =>
          have hx : allocAt st i = true ∧ evicAt st i = true ∧ Incomplete st i := by
            simp at hB
            exact ⟨hB.1.1, hB.1.2, hB.2⟩
          have hcand : Cand st i := ⟨hi, hx.1, hx.2.1⟩
          by_cases hlt : backAt st i < e
          · have hstep : evictScan2 st (i :: rest) e id = evictScan2 st rest (backAt st i) i := by
              simp [evictScan2, hB, hlt]
            rw [hstep]
            obtain ⟨h1, h2, h3⟩ := ih (backAt st i) i hmem'
            refine ⟨Nat.le_trans h1 (Nat.le_of_lt hlt), ?_, ?_⟩
            · intro j hj hc hinc
              rcases List.mem_cons.mp hj with rfl | hj'
              · exact h1
              · exact h2 j hj' hc hinc
            · rcases h3 with ⟨he, hid⟩ | ⟨hc2, hi2, hb2, hl2⟩
              · refine Or.inr ⟨?_, ?_, ?_, ?_⟩
                · rw [hid]; exact hcand
                · rw [hid]; exact hx.2.2
                · rw [hid, he]
                · rw [he]; exact hlt
              · exact Or.inr ⟨hc2, hi2, hb2, Nat.lt_trans hl2 hlt⟩
          · have hstep : evictScan2 st (i :: rest) e id = evictScan2 st rest e id := by
              simp [evictScan2, hB, hlt]
            rw [hstep]
            obtain ⟨h1, h2, h3⟩ := ih e id hmem'
            refine ⟨h1, ?_, h3⟩
            intro j hj hc hinc
            rcases List.mem_cons.mp hj with rfl | hj'
            · exact Nat.le_trans h1 (Nat.le_of_not_lt hlt)
            · exact h2 j hj' hc hinc

end LRUK

namespace LRUK

/-- The first `Evict` scan ends at the `1e9` sentinel whenever the index
list contains an allocated evictable frame with an incomplete history. -/
theorem evictScan1_breaks (st : Rep) (L : List Nat) :
    ∀ hd id, (∃ j ∈ L, allocAt st j = true ∧ evicAt st j = true ∧
        (histAt st j).length ≠ st.k) →
      (evictScan1 st L hd id).1 = BILLION := by
  induction L with
  | nil =>
      intro hd id h
      exact absurd h (by simp)
  | cons i rest ih =>
      intro hd id h
      cases hB : (!(allocAt st i) || !(evicAt st i)) with
      | true =>
          have hstep : evictScan1 st (i :: rest) hd id = evictScan1 st rest hd id := by
            simp [evictScan1, hB]
          rw [hstep]
          apply ih
          obtain ⟨j, hj, ha, he, hk⟩ := h
          rcases List.mem_cons.mp hj with rfl | hj'
          · simp [ha, he] at hB
          · exact ⟨j, hj', ha, he, hk⟩
      | false =>
          have hae : allocAt st i = true ∧ evicAt st i = true := by
            simp at hB
            exact hB
          by_cases hk : (histAt st i).length = st.k
          · by_cases hdiff : st.currentTimestamp - backAt st i > hd
            · have hstep : evictScan1 st (i :: rest) hd id
                  = evictScan1 st rest (st.currentTimestamp - backAt st i) i := by
                simp [evictScan1, hB, hk, hdiff]
              rw [hstep]
              apply ih
              obtain ⟨j, hj, ha, he, hk'⟩ := h
              rcases List.mem_cons.mp hj with rfl | hj'
              · exact absurd hk hk'
              · exact ⟨j, hj', ha, he, hk'⟩
            · have hstep : evictScan1 st (i :: rest) hd id = evictScan1 st rest hd id := by
                simp [evictScan1, hB, hk, hdiff]
              rw [hstep]
              apply ih
              obtain ⟨j, hj, ha, he, hk'⟩ := h
              rcases List.mem_cons.mp hj with rfl | hj'
              · exact absurd hk hk'
              · exact ⟨j, hj', ha, he, hk'⟩
          · have hstep : (evictScan1 st (i :: rest) hd id).1 = BILLION := by
              simp [evictScan1, hB, hk]
            exact hstep

/-- Accumulator invariant of the first `Evict` scan when no allocated
evictable frame in the list has an incomplete history (argmax of the
backward K-distance `current_timestamp_ - back()`). -/
theorem evictScan1_complete (st : Rep) (L : List Nat) :
    ∀ hd id, (∀ j ∈ L, allocAt st j = true → evicAt st j = true →
        (histAt st j).length = st.k) →
      (hd ≤ (evictScan1 st L hd id).1) ∧
      (∀ j ∈ L, allocAt st j = true → evicAt st j = true →
        st.currentTimestamp - backAt st j ≤ (evictScan1 st L hd id).1) ∧
      (((evictScan1 st L hd id).1 = hd ∧ (evictScan1 st L hd id).2 = id) ∨
        (allocAt st (evictScan1 st L hd id).2 = true ∧
         evicAt st (evictScan1 st L hd id).2 = true ∧
         (evictScan1 st L hd id).2 ∈ L ∧
         (histAt st (evictScan1 st L hd id).2).length = st.k ∧
         st.currentTimestamp - backAt st (evictScan1 st L hd id).2 = (evictScan1 st L hd id).1 ∧
         hd < (evictScan1 st L hd id).1)) := by
  induction L with
  | nil =>
      intro hd id _
      exact ⟨Nat.le_refl _, by intro j hj; exact absurd hj (by simp), Or.inl ⟨rfl, rfl⟩⟩
  | cons i rest ih =>
      intro hd id hnone
      have hnone' : ∀ j ∈ rest, allocAt st j = true → evicAt st j = true →
          (histAt st j).length = st.k :=
        fun j hj => hnone j (List.mem_cons_of_mem _ hj)
      cases hB : (!(allocAt st i) || !(evicAt st i)) with
      | true =>
          have hstep : evictScan1 st (i :: rest) hd id = evictScan1 st rest hd id := by
            simp [evictScan1, hB]
          rw [hstep]
          obtain ⟨h1, h2, h3⟩ := ih hd id hnone'
          refine ⟨h1, ?_, ?_⟩
          · intro j hj ha he
            rcases List.mem_cons.mp hj with rfl | hj'
            · simp [ha, he] at hB
            · exact h2 j hj' ha he
          · rcases h3 with hl | ⟨a, b, c, d, e, f⟩
            · exact Or.inl hl
            · exact Or.inr ⟨a, b, List.mem_cons_of_mem _ c, d, e, f⟩
      | false =>
          have hae : allocAt st i = true ∧ evicAt st i = true := by
            simp at hB
            exact hB
          have hk : (histAt st i).length = st.k := hnone i (List.mem_cons_self _ _) hae.1 hae.2
          by_cases hdiff : st.currentTimestamp - backAt st i > hd
          · have hstep : evictScan1 st (i :: rest) hd id
                = evictScan1 st rest (st.currentTimestamp - backAt st i) i := by
              simp [evictScan1, hB, hk, hdiff]
            rw [hstep]
            obtain ⟨h1, h2, h3⟩ := ih (st.currentTimestamp - backAt st i) i hnone'
            refine ⟨Nat.le_trans (Nat.le_of_lt hdiff) h1, ?_, ?_⟩
            · intro j hj ha he
              rcases List.mem_cons.mp hj with rfl | hj'
              · exact h1
              · exact h2 j hj' ha he
            · rcases h3 with ⟨he, hid⟩ | ⟨a, b, c, d, e, f⟩
              · refine Or.inr ⟨?_, ?_, ?_, ?_, ?_, ?_⟩
                · rw [hid]; exact hae.1
                · rw [hid]; exact hae.2
                · rw [hid]; exact List.mem_cons_self _ _
                · rw [hid]; exact hk
                · rw [hid, he]
                · rw [he]; exact hdiff
              · exact Or.inr ⟨a, b, List.mem_cons_of_mem _ c, d, e,
                  Nat.lt_trans hdiff f⟩
          · have hstep : evictScan1 st (i :: rest) hd id = evictScan1 st rest hd id := by
              simp [evictScan1, hB, hk, hdiff]
            rw [hstep]
            obtain ⟨h1, h2, h3⟩ := ih hd id hnone'
            refine ⟨h1, ?_, ?_⟩
            · intro j hj ha he
              rcases List.mem_cons.mp hj with rfl | hj'
              · exact Nat.le_trans (Nat.le_of_not_lt hdiff) h1
              · exact h2 j hj' ha he
            · rcases h3 with hl | ⟨a, b, c, d, e, f⟩
              · exact Or.inl hl
              · exact Or.inr ⟨a, b, List.mem_cons_of_mem _ c, d, e, f⟩

end LRUK

open LRUK in
/-- C6: on every well-formed replacer state, `Evict` returns false iff no
frame is evictable; otherwise it removes (as `Remove` does) and reports a
victim chosen by the LRU-K policy: an allocated evictable frame that, when
some evictable frame has fewer than K recorded accesses, itself has fewer
than K and the smallest earliest retained access timestamp among such
frames, and, when every evictable frame has exactly K recorded accesses,
has the smallest Kth-most-recent access timestamp among all of them. -/
theorem lrukEvictPolicy (st : Rep) (hwf : WFRep st) :
    (evict st = none ↔ evictableCount st = 0) ∧
    ∀ id st', evict st = some (id, st') →
      Cand st id ∧ st' = removeInternalR st id ∧
      ((∃ j, Cand st j ∧ (histAt st j).length < st.k) →
        (histAt st id).length < st.k ∧
        ∀ j, Cand st j → (histAt st j).length < st.k → backAt st id ≤ backAt st j) ∧
      ((∀ j, Cand st j → (histAt st j).length = st.k) →
        ∀ j, Cand st j → backAt st id ≤ backAt st j) := by
  have hcount : st.currSize = evictableCount st := hwf.2.2.2.1
  constructor
  · constructor
    · intro h
      by_cases hc : st.currSize = 0
      · rw [← hcount]; exact hc
      · unfold evict at h
        rw [if_neg hc] at h
        exact absurd h (by simp)
    · intro h
      unfold evict
      rw [if_pos (by rw [hcount]; exact h)]
  · intro id st' hsome
    by_cases hc : st.currSize = 0
    · unfold evict at hsome
      rw [if_pos hc] at hsome
      exact absurd hsome (by simp)
    have hev : evict st = some
        ((if (evictScan1 st (List.range st.numFrames) 0 BILLION).1 = BILLION then
            (evictScan2 st (List.range st.numFrames) st.currentTimestamp
              (evictScan1 st (List.range st.numFrames) 0 BILLION).2).2
          else (evictScan1 st (List.range st.numFrames) 0 BILLION).2),
         removeInternalR st
          (if (evictScan1 st (List.range st.numFrames) 0 BILLION).1 = BILLION then
            (evictScan2 st (List.range st.numFrames) st.currentTimestamp
              (evictScan1 st (List.range st.numFrames) 0 BILLION).2).2
          else (evictScan1 st (List.range st.numFrames) 0 BILLION).2)) := by
      unfold evict
      rw [if_neg hc]
    rw [hev] at hsome
    simp only [Option.some.injEq, Prod.mk.injEq] at hsome
    obtain ⟨hidEq, hstEq⟩ := hsome
    -- a candidate exists because curr_size (= the evictable count) is nonzero
    have hex : ∃ i, Cand st i := by
      have hpos : 0 < (List.range st.numFrames).countP (fun i => evicAt st i) := by
        have := hcount ▸ Nat.pos_of_ne_zero hc
        exact this
      obtain ⟨i, hi, hie⟩ := List.countP_pos_iff.mp hpos
      have hin : i < st.numFrames := List.mem_range.mp hi
      exact ⟨i, hin, hwf.2.2.2.2.1 i hin (by simpa using hie), by simpa using hie⟩
    have hmemrange : ∀ j ∈ List.range st.numFrames, j < st.numFrames :=
      fun j hj => List.mem_range.mp hj
    by_cases hinc : ∃ j, Cand st j ∧ (histAt st j).length ≠ st.k
    · -- some evictable frame has an incomplete history
      obtain ⟨j0, hj0c, hj0i⟩ := hinc
      have hbrk : (evictScan1 st (List.range st.numFrames) 0 BILLION).1 = BILLION :=
        evictScan1_breaks st _ 0 BILLION
          ⟨j0, List.mem_range.mpr hj0c.1, hj0c.2.1, hj0c.2.2, hj0i⟩
      rw [if_pos hbrk] at hidEq hstEq
      obtain ⟨s1, s2, s3⟩ := evictScan2_spec st (List.range st.numFrames)
        st.currentTimestamp (evictScan1 st (List.range st.numFrames) 0 BILLION).2 hmemrange
      have hj0b : backAt st j0 < st.currentTimestamp := back_lt_ts st hwf j0 hj0c
      have hlt' : (evictScan2 st (List.range st.numFrames) st.currentTimestamp
          (evictScan1 st (List.range st.numFrames) 0 BILLION).2).1 < st.currentTimestamp :=
        Nat.lt_of_le_of_lt (s2 j0 (List.mem_range.mpr hj0c.1) hj0c hj0i) hj0b
      rcases s3 with ⟨he, _⟩ | ⟨hc2, hi2, hb2, _⟩
      · rw [he] at hlt'
        exact absurd hlt' (Nat.lt_irrefl _)
      · rw [hidEq] at hc2 hi2 hb2 hstEq
        refine ⟨hc2, hstEq.symm, ?_, ?_⟩
        · intro _
          refine ⟨Nat.lt_of_le_of_ne (hist_le_k st hwf id hc2) hi2, ?_⟩
          intro j hjc hjlt
          rw [hb2]
          exact s2 j (List.mem_range.mpr hjc.1) hjc (Nat.ne_of_lt hjlt)
        · intro hall
          exact absurd (hall j0 hj0c) hj0i
    · -- every evictable frame has a complete history
      have hinc' : ∀ j, Cand st j → (histAt st j).length = st.k := by
        intro j hjc
        by_contra hne
        exact hinc ⟨j, hjc, hne⟩
      have hall : ∀ j ∈ List.range st.numFrames, allocAt st j = true →
          evicAt st j = true → (histAt st j).length = st.k :=
        fun j hj ha he => hinc' j ⟨List.mem_range.mp hj, ha, he⟩
      obtain ⟨t1, t2, t3⟩ := evictScan1_complete st (List.range st.numFrames) 0 BILLION hall
      obtain ⟨i0, hi0⟩ := hex
      have hpos1 : 0 < (evictScan1 st (List.range st.numFrames) 0 BILLION).1 :=
        Nat.lt_of_lt_of_le (Nat.sub_pos_of_lt (back_lt_ts st hwf i0 hi0))
          (t2 i0 (List.mem_range.mpr hi0.1) hi0.2.1 hi0.2.2)
      rcases t3 with ⟨hz, _⟩ | ⟨ha1, hb1, hm1, hk1, hd1, _⟩
      · rw [hz] at hpos1
        exact absurd hpos1 (Nat.lt_irrefl _)
      · have hcand1 : Cand st (evictScan1 st (List.range st.numFrames) 0 BILLION).2 :=
          ⟨List.mem_range.mp hm1, ha1, hb1⟩
        have hidSel : (if (evictScan1 st (List.range st.numFrames) 0 BILLION).1 = BILLION then
              (evictScan2 st (List.range st.numFrames) st.currentTimestamp
                (evictScan1 st (List.range st.numFrames) 0 BILLION).2).2
            else (evictScan1 st (List.range st.numFrames) 0 BILLION).2)
            = (evictScan1 st (List.range st.numFrames) 0 BILLION).2 := by
          by_cases hbil : (evictScan1 st (List.range st.numFrames) 0 BILLION).1 = BILLION
          · rw [if_pos hbil]
            obtain ⟨_, _, s3⟩ := evictScan2_spec st (List.range st.numFrames)
              st.currentTimestamp (evictScan1 st (List.range st.numFrames) 0 BILLION).2
              hmemrange
            rcases s3 with ⟨_, hid2⟩ | ⟨hc2, hi2, _, _⟩
            · exact hid2
            · exact absurd (hinc' _ hc2) hi2
          · rw [if_neg hbil]
        rw [hidSel] at hidEq hstEq
        have hmin : ∀ j, Cand st j →
            backAt st (evictScan1 st (List.range st.numFrames) 0 BILLION).2 ≤ backAt st j := by
          intro j hjc
          have h1 : st.currentTimestamp - backAt st j
              ≤ (evictScan1 st (List.range st.numFrames) 0 BILLION).1 :=
            t2 j (List.mem_range.mpr hjc.1) hjc.2.1 hjc.2.2
          have hbj : backAt st j < st.currentTimestamp := back_lt_ts st hwf j hjc
          have hbr : backAt st (evictScan1 st (List.range st.numFrames) 0 BILLION).2
              < st.currentTimestamp := back_lt_ts st hwf _ hcand1
          omega
        rw [hidEq] at hcand1 hmin hstEq
        refine ⟨hcand1, hstEq.symm, ?_, ?_⟩
        · intro hexinc
          obtain ⟨j1, hj1c, hj1l⟩ := hexinc
          exact absurd (hinc' j1 hj1c) (Nat.ne_of_lt hj1l)
        · intro _
          exact hmin

open LRUK in
/-- C6 witness: on `twoFrameState` (frame 0 incomplete, frame 1 complete)
`Evict` succeeds and the victim is a candidate frame. -/
theorem lrukEvictPolicy_witness :
    ∃ id st', evict twoFrameState = some (id, st') ∧ Cand twoFrameState id := by
  have h := (lrukEvictPolicy twoFrameState (by decide)).2 0
    (removeInternalR twoFrameState 0) rfl
  exact ⟨0, removeInternalR twoFrameState 0, rfl, h.1⟩

namespace EHT

/-! ### Key-lookup lemmas on entry lists -/

theorem upsert_find_self (l : List (Nat × Nat)) (k v : Nat)
    (h : ∃ p ∈ l, p.1 = k) :
    (upsertList l k v).find? (fun p => p.1 == k) = some (k, v) := by
  induction l with
  | nil => exact absurd h (by simp)
  | cons p t ih =>
      cases hbeq : (p.1 == k) with
      | true =>
          have hp : p.1 = k := by simpa using hbeq
          simp only [upsertList, hbeq]
          rw [if_pos trivial]
          rw [List.find?_cons_of_pos _ (by simpa using hp)]
          rw [hp]
      | false =>
          have hp : ¬ p.1 = k := by simpa using hbeq
          have h' : ∃ q ∈ t, q.1 = k := by
            obtain ⟨q, hq, hqk⟩ := h
            rcases List.mem_cons.mp hq with rfl | hq'
            · exact absurd hqk hp
            · exact ⟨q, hq', hqk⟩
          simp only [upsertList, hbeq]
          rw [if_neg (by simp)]
          rw [List.find?_cons_of_neg _ (by simpa using hp)]
          exact ih h'

theorem upsert_find_other (l : List (Nat × Nat)) (k v k' : Nat) (hne : k' ≠ k) :
    (upsertList l k v).find? (fun p => p.1 == k')
      = l.find? (fun p => p.1 == k') := by
  induction l with
  | nil => rfl
  | cons p t ih =>
      cases hbeq : (p.1 == k) with
      | true =>
          have hp : p.1 = k := by simpa using hbeq
          simp only [upsertList, hbeq]
          rw [if_pos trivial]
          rw [List.find?_cons_of_neg _ (by simp [hp, Ne.symm hne]),
              List.find?_cons_of_neg _ (by simp [hp, Ne.symm hne])]
      | false =>
          simp only [upsertList, hbeq]
          rw [if_neg (by simp)]
          by_cases hk' : p.1 = k'
          · rw [List.find?_cons_of_pos _ (by simpa using hk'),
                List.find?_cons_of_pos _ (by simpa using hk')]
          · rw [List.find?_cons_of_neg _ (by simpa using hk'),
                List.find?_cons_of_neg _ (by simpa using hk')]
            exact ih

theorem find?_append_none {α : Type _} (l₁ l₂ : List α) (p : α → Bool)
    (h : l₁.find? p = none) : (l₁ ++ l₂).find? p = l₂.find? p := by
  induction l₁ with
  | nil => rfl
  | cons a t ih =>
      by_cases ha : p a
      · rw [List.find?_cons_of_pos _ ha] at h
        exact absurd h (by simp)
      · rw [List.find?_cons_of_neg _ (by simpa using ha)] at h
        rw [List.cons_append, List.find?_cons_of_neg _ (by simpa using ha)]
        exact ih h

theorem find?_filter_pairwise (l : List (Nat × Nat)) (f : Nat × Nat → Bool) (k : Nat)
    (hpw : l.Pairwise (fun p q => p.1 ≠ q.1)) :
    (l.filter f).find? (fun p => p.1 == k)
      = match l.find? (fun p => p.1 == k) with
        | some p => if f p then some p else none
        | none => none := by
  induction l with
  | nil => rfl
  | cons a t ih =>
      have hpw' := (List.pairwise_cons.mp hpw).2
      have hha := (List.pairwise_cons.mp hpw).1
      by_cases hak : a.1 = k
      · rw [List.find?_cons_of_pos _ (by simpa using hak)]
        by_cases hfa : f a
        · rw [List.filter_cons_of_pos hfa,
              List.find?_cons_of_pos _ (by simpa using hak)]
          simp [hfa]
        · rw [List.filter_cons_of_neg (by simpa using hfa)]
          rw [ih hpw']
          have ht : t.find? (fun p => p.1 == k) = none := by
            rw [List.find?_eq_none]
            intro q hq
            simp only [beq_iff_eq]
            rw [← hak]
            exact (hha q hq).symm
          rw [ht]
          simp [hfa]
      · by_cases hfa : f a
        · rw [List.filter_cons_of_pos hfa,
              List.find?_cons_of_neg _ (by simpa using hak),
              List.find?_cons_of_neg _ (by simpa using hak)]
          exact ih hpw'
        · rw [List.filter_cons_of_neg (by simpa using hfa),
              List.find?_cons_of_neg _ (by simpa using hak)]
          exact ih hpw'

/-! ### Modular-arithmetic toolkit (variable power-of-two moduli) -/

theorem mod_mod_of_le (a : Nat) (d g : Nat) (h : d ≤ g) :
    a % 2 ^ g % 2 ^ d = a % 2 ^ d :=
  Nat.mod_mod_of_dvd a (Nat.pow_dvd_pow 2 h)

theorem cong_add_mul (a m n : Nat) : (a + m * n) % n = a % n := by
  simp [Nat.add_mul_mod_self_right]

/-- Two numbers agreeing modulo `n` differ by a multiple of `n` in one
direction or the other. -/
theorem cong_decomp (a b n : Nat) (h : a % n = b % n) :
    ∃ m, a = b + m * n ∨ b = a + m * n := by
  rcases Nat.le_total b a with hle | hle
  · have hdvd : n ∣ a - b := (Nat.modEq_iff_dvd' hle).mp (Nat.ModEq.symm h)
    obtain ⟨m, hm⟩ := hdvd
    refine ⟨m, Or.inl ?_⟩
    rw [Nat.mul_comm m n]
    omega
  · have hdvd : n ∣ b - a := (Nat.modEq_iff_dvd' hle).mp h
    obtain ⟨m, hm⟩ := hdvd
    refine ⟨m, Or.inr ?_⟩
    rw [Nat.mul_comm m n]
    omega

end EHT

namespace EHT

/-! ### Characterization of the alternating directory walks -/

theorem walkUp_step_lt (d : List Nat) (o n step bound i : Nat) (turn : Bool) (gas : Nat)
    (h : i < bound) :
    walkUp d o n step bound i turn (gas + 1)
      = walkUp (d.set i (if turn then n else o)) o n step bound (i + step) (!turn) gas := by
  simp [walkUp, h]

theorem walkUp_step_ge (d : List Nat) (o n step bound i : Nat) (turn : Bool) (gas : Nat)
    (h : ¬ i < bound) :
    walkUp d o n step bound i turn (gas + 1) = d := by
  simp [walkUp, h]

theorem walkDown_step_le (d : List Nat) (o n step i : Nat) (turn : Bool) (gas : Nat)
    (h : step ≤ i) :
    walkDown d o n step i turn (gas + 1)
      = walkDown (d.set i (if turn then n else o)) o n step (i - step) (!turn) gas := by
  simp [walkDown, h]

theorem walkDown_step_gt (d : List Nat) (o n step i : Nat) (turn : Bool) (gas : Nat)
    (h : ¬ step ≤ i) :
    walkDown d o n step i turn (gas + 1) = d.set i (if turn then n else o) := by
  simp [walkDown, h]

theorem walkUp_length (o n step bound : Nat) :
    ∀ gas d i turn, (walkUp d o n step bound i turn gas).length = d.length := by
  intro gas
  induction gas with
  | zero => intro d i turn; rfl
  | succ gas ih =>
      intro d i turn
      by_cases h : i < bound
      · rw [walkUp_step_lt d o n step bound i turn gas h, ih]
        simp
      · rw [walkUp_step_ge d o n step bound i turn gas h]

theorem walkDown_length (o n step : Nat) :
    ∀ gas d i turn, (walkDown d o n step i turn gas).length = d.length := by
  intro gas
  induction gas with
  | zero => intro d i turn; rfl
  | succ gas ih =>
      intro d i turn
      by_cases h : step ≤ i
      · rw [walkDown_step_le d o n step i turn gas h, ih]
        simp
      · rw [walkDown_step_gt d o n step i turn gas h]
        simp

theorem walkUp_lt (o n step bound : Nat) :
    ∀ gas d i turn j, j < i →
      (walkUp d o n step bound i turn gas).getD j 0 = d.getD j 0 := by
  intro gas
  induction gas with
  | zero => intro d i turn j _; rfl
  | succ gas ih =>
      intro d i turn j hj
      by_cases h : i < bound
      · rw [walkUp_step_lt d o n step bound i turn gas h,
            ih _ (i + step) (!turn) j (by omega)]
        exact getD_set_ne _ _ _ (by omega) _ _
      · rw [walkUp_step_ge d o n step bound i turn gas h]

theorem walkUp_ncong (o n step bound : Nat) :
    ∀ gas d i turn j, (∀ m, j ≠ i + m * step) →
      (walkUp d o n step bound i turn gas).getD j 0 = d.getD j 0 := by
  intro gas
  induction gas with
  | zero => intro d i turn j _; rfl
  | succ gas ih =>
      intro d i turn j hj
      by_cases h : i < bound
      · rw [walkUp_step_lt d o n step bound i turn gas h,
            ih _ (i + step) (!turn) j (fun m => by
              have := hj (m + 1)
              rw [Nat.succ_mul] at this
              omega)]
        exact getD_set_ne _ _ _ (by have := hj 0; omega) _ _
      · rw [walkUp_step_ge d o n step bound i turn gas h]

theorem walkUp_hit (o n step bound : Nat) (hstep : 1 ≤ step) :
    ∀ m gas d i turn, i + m * step < bound → bound ≤ d.length → m + 1 ≤ gas →
      (walkUp d o n step bound i turn gas).getD (i + m * step) 0
        = (if m % 2 = 0 then (if turn then n else o) else (if turn then o else n)) := by
  intro m
  induction m with
  | zero =>
      intro gas d i turn hb hlen hgas
      simp only [Nat.zero_mul, Nat.add_zero] at hb ⊢
      match gas, hgas with
      | gas + 1, _ =>
        rw [walkUp_step_lt d o n step bound i turn gas hb,
            walkUp_lt o n step bound gas _ (i + step) (!turn) i (by omega)]
        rw [getD_set_self _ _ (by omega)]
        simp
  | succ m ih =>
      intro gas d i turn hb hlen hgas
      have hb2 : i + (m * step + step) < bound := by
        rw [Nat.succ_mul] at hb; omega
      have hib : i < bound := by omega
      match gas, hgas with
      | gas + 1, _ =>
        rw [walkUp_step_lt d o n step bound i turn gas hib]
        have harg : i + (m + 1) * step = (i + step) + m * step := by
          rw [Nat.succ_mul]; omega
        rw [harg]
        rw [ih gas (d.set i (if turn then n else o)) (i + step) (!turn)
            (by omega) (by rw [List.length_set]; exact hlen) (by omega)]
        by_cases hm : m % 2 = 0
        · have h2 : (m + 1) % 2 = 1 := by omega
          cases turn <;> simp [hm, h2]
        · have h2 : (m + 1) % 2 = 0 := by omega
          cases turn <;> simp [hm, h2]

theorem walkDown_gt (o n step : Nat) :
    ∀ gas d i turn j, i < j →
      (walkDown d o n step i turn gas).getD j 0 = d.getD j 0 := by
  intro gas
  induction gas with
  | zero => intro d i turn j _; rfl
  | succ gas ih =>
      intro d i turn j hj
      by_cases h : step ≤ i
      · rw [walkDown_step_le d o n step i turn gas h,
            ih _ (i - step) (!turn) j (by omega)]
        exact getD_set_ne _ _ _ (by omega) _ _
      · rw [walkDown_step_gt d o n step i turn gas h]
        exact getD_set_ne _ _ _ (by omega) _ _

theorem walkDown_ncong (o n step : Nat) :
    ∀ gas d i turn j, (∀ m, i ≠ j + m * step) →
      (walkDown d o n step i turn gas).getD j 0 = d.getD j 0 := by
  intro gas
  induction gas with
  | zero => intro d i turn j _; rfl
  | succ gas ih =>
      intro d i turn j hj
      by_cases h : step ≤ i
      · rw [walkDown_step_le d o n step i turn gas h,
            ih _ (i - step) (!turn) j (fun m => by
              have := hj (m + 1)
              rw [Nat.succ_mul] at this
              omega)]
        exact getD_set_ne _ _ _ (by have := hj 0; omega) _ _
      · rw [walkDown_step_gt d o n step i turn gas h]
        exact getD_set_ne _ _ _ (by have := hj 0; omega) _ _

theorem walkDown_hit (o n step : Nat) (hstep : 1 ≤ step) :
    ∀ m gas d i turn j, i = j + m * step → i < d.length → m + 1 ≤ gas →
      (walkDown d o n step i turn gas).getD j 0
        = (if m % 2 = 0 then (if turn then n else o) else (if turn then o else n)) := by
  intro m
  induction m with
  | zero =>
      intro gas d i turn j hij hlen hgas
      simp only [Nat.zero_mul, Nat.add_zero] at hij
      match gas, hgas with
      | gas + 1, _ =>
        by_cases h : step ≤ i
        · rw [walkDown_step_le d o n step i turn gas h,
              walkDown_gt o n step gas _ (i - step) (!turn) j (by omega)]
          rw [← hij]
          rw [getD_set_self _ _ (by omega)]
          simp
        · rw [walkDown_step_gt d o n step i turn gas h]
          rw [← hij]
          rw [getD_set_self _ _ (by omega)]
          simp
  | succ m ih =>
      intro gas d i turn j hij hlen hgas
      have hij2 : i = j + (m * step + step) := by
        rw [Nat.succ_mul] at hij; omega
      have hstepi : step ≤ i := by omega
      match gas, hgas with
      | gas + 1, _ =>
        rw [walkDown_step_le d o n step i turn gas hstepi]
        rw [ih gas (d.set i (if turn then n else o)) (i - step) (!turn) j
            (by omega) (by rw [List.length_set]; omega) (by omega)]
        by_cases hm : m % 2 = 0
        · have h2 : (m + 1) % 2 = 1 := by omega
          cases turn <;> simp [hm, h2]
        · have h2 : (m + 1) % 2 = 0 := by omega
          cases turn <;> simp [hm, h2]

theorem step_mod_neq (step index : Nat) (hs : 1 ≤ step) :
    index % (2 * step) ≠ (index + step) % (2 * step) := by
  intro h
  obtain ⟨m, hm | hm⟩ := cong_decomp index (index + step) (2 * step) h
  · have : m * (2 * step) ≥ step ∨ m * (2 * step) = 0 := by
      cases m with
      | zero => right; simp
      | succ m =>
          left
          calc step ≤ 2 * step := by omega
          _ ≤ (m + 1) * (2 * step) := Nat.le_mul_of_pos_left _ (by omega)
    omega
  · have hge : m * (2 * step) = step := by omega
    have : m * (2 * step) ≥ 2 * step ∨ m * (2 * step) = 0 := by
      cases m with
      | zero => right; simp
      | succ m => left; exact Nat.le_mul_of_pos_left _ (by omega)
    omega

/-- Effect of the two alternating walks on the directory: slots congruent
to `index` modulo `2·step` get the old bucket, slots congruent to
`index + step` get the new one, all other slots are untouched. -/
theorem dir2_spec (dir1 : List Nat) (o n step bound index : Nat)
    (hstep : 1 ≤ step) (hlen : dir1.length = bound) (hindex : index < bound) :
    ((walkDown (walkUp dir1 o n step bound index false (bound + 1))
        o n step index false (index + 1)).length = dir1.length) ∧
    (∀ j, j % step ≠ index % step →
      (walkDown (walkUp dir1 o n step bound index false (bound + 1))
        o n step index false (index + 1)).getD j 0 = dir1.getD j 0) ∧
    (∀ j, j < bound → j % (2 * step) = index % (2 * step) →
      (walkDown (walkUp dir1 o n step bound index false (bound + 1))
        o n step index false (index + 1)).getD j 0 = o) ∧
    (∀ j, j < bound → j % (2 * step) = (index + step) % (2 * step) →
      (walkDown (walkUp dir1 o n step bound index false (bound + 1))
        o n step index false (index + 1)).getD j 0 = n) := by
  have hulen : (walkUp dir1 o n step bound index false (bound + 1)).length = dir1.length :=
    walkUp_length o n step bound (bound + 1) dir1 index false
  refine ⟨?_, ?_, ?_, ?_⟩
  · rw [walkDown_length o n step (index + 1) _ index false, hulen]
  · intro j hj
    rw [walkDown_ncong o n step (index + 1) _ index false j (fun m => by
      intro hcon
      apply hj
      rw [hcon, cong_add_mul])]
    rw [walkUp_ncong o n step bound (bound + 1) dir1 index false j (fun m => by
      intro hcon
      apply hj
      rw [hcon, cong_add_mul])]
  · intro j hjb hjc
    obtain ⟨m, hm | hm⟩ := cong_decomp j index (2 * step) hjc
    · -- j = index + m * (2*step): at or above index
      by_cases hji : j = index
      · -- the downward walk writes the old bucket at index itself
        rw [hji]
        rw [walkDown_hit o n step hstep 0 (index + 1) _ index false index
            (by simp) (by rw [hulen, hlen]; omega) (by omega)]
        simp
      · have hmpos : 1 ≤ m := by
          rcases Nat.eq_zero_or_pos m with h0 | h1
          · rw [h0] at hm; simp at hm; omega
          · exact h1
        have hgt : index < j := by
          have : 2 * step ≤ m * (2 * step) := Nat.le_mul_of_pos_left _ hmpos
          omega
        rw [walkDown_gt o n step (index + 1) _ index false j hgt]
        have hm' : j = index + (2 * m) * step := by
          rw [hm]; ring
        have hgas : 2 * m + 1 ≤ bound + 1 := by
          have h1 : 2 * m ≤ (2 * m) * step := Nat.le_mul_of_pos_right _ (by omega)
          omega
        rw [hm']
        rw [walkUp_hit o n step bound hstep (2 * m) (bound + 1) dir1 index false
            (by rw [← hm']; exact hjb) (by omega) hgas]
        simp [Nat.mul_mod_right]
    · -- index = j + m * (2*step): at or below index
      have hm' : index = j + (2 * m) * step := by
        rw [hm]; ring
      have hgas : 2 * m + 1 ≤ index + 1 := by
        have h1 : 2 * m ≤ (2 * m) * step := Nat.le_mul_of_pos_right _ (by omega)
        omega
      rw [walkDown_hit o n step hstep (2 * m) (index + 1) _ index false j hm'
          (by rw [hulen, hlen]; omega) hgas]
      simp [Nat.mul_mod_right]
  · intro j hjb hjc
    obtain ⟨m, hm | hm⟩ := cong_decomp j (index + step) (2 * step) hjc
    · -- j = index + step + m * (2*step): strictly above index
      have hgt : index < j := by omega
      rw [walkDown_gt o n step (index + 1) _ index false j hgt]
      have hm' : j = index + (2 * m + 1) * step := by
        rw [hm]; ring
      have hgas : 2 * m + 1 + 1 ≤ bound + 1 := by
        have h1 : 2 * m + 1 ≤ (2 * m + 1) * step := Nat.le_mul_of_pos_right _ (by omega)
        omega
      rw [hm']
      rw [walkUp_hit o n step bound hstep (2 * m + 1) (bound + 1) dir1 index false
          (by rw [← hm']; exact hjb) (by omega) hgas]
      have : (2 * m + 1) % 2 = 1 := by omega
      simp [this]
    · -- index + step = j + m * (2*step)
      rcases Nat.eq_zero_or_pos m with h0 | hmpos
      · -- m = 0: j = index + step, covered by the upward walk
        rw [h0] at hm
        simp at hm
        have hgt : index < j := by omega
        rw [walkDown_gt o n step (index + 1) _ index false j hgt]
        have hm' : j = index + 1 * step := by omega
        have hgas : 1 + 1 ≤ bound + 1 := by omega
        rw [hm']
        rw [walkUp_hit o n step bound hstep 1 (bound + 1) dir1 index false
            (by rw [← hm']; exact hjb) (by omega) hgas]
        simp
      · -- m ≥ 1: index = j + (2m - 1) * step, odd step count below index
        have hm' : index = j + (2 * m - 1) * step := by
          have hx : (2 * m - 1) * step + step = m * (2 * step) := by
            have h2 : 2 * m - 1 + 1 = 2 * m := by omega
            calc (2 * m - 1) * step + step = (2 * m - 1 + 1) * step := (Nat.succ_mul _ _).symm
            _ = (2 * m) * step := by rw [h2]
            _ = m * (2 * step) := by ring
          omega
        have hgas : (2 * m - 1) + 1 ≤ index + 1 := by
          have h1 : 2 * m - 1 ≤ (2 * m - 1) * step := Nat.le_mul_of_pos_right _ (by omega)
          omega
        rw [walkDown_hit o n step hstep (2 * m - 1) (index + 1) _ index false j hm'
            (by rw [hulen, hlen]; omega) hgas]
        have : (2 * m - 1) % 2 = 1 := by omega
        simp [this]

/-- Reading back the bucket just written. -/
theorem bktAt_setBkt_self (st : Tbl) (b : Nat) (bk : Bkt) (h : b < st.buckets.length) :
    bktAt (setBkt st b bk) b = bk := by
  unfold bktAt setBkt
  exact getD_set_self _ _ h _ _

/-- Writing one bucket leaves the others alone. -/
theorem bktAt_setBkt_ne (st : Tbl) (b c : Nat) (bk : Bkt) (h : c ≠ b) :
    bktAt (setBkt st b bk) c = bktAt st c := by
  unfold bktAt setBkt
  exact getD_set_ne _ _ _ h _ _

/-- `Bucket::Remove` of the head entry drops exactly that entry. -/
theorem bktRemove_head (b : Bkt) (p : Nat × Nat) (l : List (Nat × Nat))
    (h : b.list = p :: l) :
    bktRemove b p.1 = (true, { b with list := l }) := by
  unfold bktRemove
  rw [h, if_pos (by simp), List.eraseP_cons_of_pos (by simp)]

/-- `Bucket::Insert` on a non-full bucket with a fresh key appends. -/
theorem bktInsert_append (b : Bkt) (k v : Nat)
    (hroom : b.list.length < b.cap)
    (hfresh : ∀ q ∈ b.list, q.1 ≠ k) :
    bktInsert b k v = (true, { b with list := b.list ++ [(k, v)] }) := by
  unfold bktInsert bktIsFull
  rw [if_neg (by
    simp only [ge_iff_le, decide_eq_true_eq, not_le]
    exact hroom)]
  rw [if_neg (by
    simp only [List.any_eq_true, beq_iff_eq, not_exists, not_and]
    intro q hq
    exact hfresh q hq)]

/-- Invariant of the redistribution loop. With the directory and global
depth frozen (they never change during the loop), processing the remaining
items `rem` of the split bucket moves each one to the directory slot of its
hash: the old bucket ends with the items routed back to it appended to
`accOld`, the new bucket likewise, every other bucket is untouched, and the
bucket headers (depth, capacity) survive. -/
theorem redistribute_spec (hash : Nat → Nat) (D : List Nat) (g cap oldBid newBid : Nat)
    (hne : oldBid ≠ newBid) :
    ∀ (rem : List (Nat × Nat)) (st : Tbl) (accOld accNew : List (Nat × Nat)),
      st.dir = D → st.globalDepth = g →
      oldBid < st.buckets.length → newBid < st.buckets.length →
      (bktAt st oldBid).list = rem ++ accOld →
      (bktAt st newBid).list = accNew →
      (bktAt st oldBid).cap = cap → (bktAt st newBid).cap = cap →
      rem.length + accOld.length + accNew.length ≤ cap →
      (rem ++ accOld).Pairwise (fun p q => p.1 ≠ q.1) →
      (∀ p ∈ rem, ∀ q ∈ accNew, p.1 ≠ q.1) →
      (∀ p ∈ rem, D.getD (hash p.1 % 2 ^ g) 0 = oldBid ∨
                  D.getD (hash p.1 % 2 ^ g) 0 = newBid) →
      (bktAt (redistribute hash st oldBid rem) oldBid).list
          = accOld ++ rem.filter (fun p => D.getD (hash p.1 % 2 ^ g) 0 == oldBid) ∧
      (bktAt (redistribute hash st oldBid rem) newBid).list
          = accNew ++ rem.filter (fun p => D.getD (hash p.1 % 2 ^ g) 0 == newBid) ∧
      (∀ b, b ≠ oldBid → b ≠ newBid →
        bktAt (redistribute hash st oldBid rem) b = bktAt st b) ∧
      (redistribute hash st oldBid rem).dir = st.dir ∧
      (redistribute hash st oldBid rem).globalDepth = st.globalDepth ∧
      (redistribute hash st oldBid rem).buckets.length = st.buckets.length ∧
      (redistribute hash st oldBid rem).bucketSize = st.bucketSize ∧
      (redistribute hash st oldBid rem).numBuckets = st.numBuckets ∧
      (bktAt (redistribute hash st oldBid rem) oldBid).depth = (bktAt st oldBid).depth ∧
      (bktAt (redistribute hash st oldBid rem) newBid).depth = (bktAt st newBid).depth ∧
      (bktAt (redistribute hash st oldBid rem) oldBid).cap = cap ∧
      (bktAt (redistribute hash st oldBid rem) newBid).cap = cap := by
  intro rem
  induction rem with
  | nil =>
      intro st accOld accNew hdir hg hol hnl h1 h2 hc1 hc2 hlen hpw hdisj htgt
      simp only [redistribute, List.nil_append] at h1 ⊢
      simp [h1, h2, hc1, hc2]
  | cons p rem ih =>
      intro st accOld accNew hdir hg hol hnl h1 h2 hc1 hc2 hlen hpw hdisj htgt
      simp only [List.length_cons] at hlen
      have hpw_tail : (rem ++ accOld).Pairwise (fun p q => p.1 ≠ q.1) :=
        (List.pairwise_cons.mp (by rw [← List.cons_append]; exact hpw)).2
      have hp_not_old : ∀ q ∈ rem ++ accOld, p.1 ≠ q.1 :=
        (List.pairwise_cons.mp (by rw [← List.cons_append]; exact hpw)).1
      -- step 1: p sits at the front of the old bucket and is removed
      have hrm : bktRemove (bktAt st oldBid) p.1
          = (true, { bktAt st oldBid with list := rem ++ accOld }) :=
        bktRemove_head _ p _ h1
      have hbold1 : bktAt (setBkt st oldBid (bktRemove (bktAt st oldBid) p.1).2) oldBid
          = { bktAt st oldBid with list := rem ++ accOld } := by
        rw [hrm]
        exact bktAt_setBkt_self _ _ _ hol
      have hbnew1 : bktAt (setBkt st oldBid (bktRemove (bktAt st oldBid) p.1).2) newBid
          = bktAt st newBid :=
        bktAt_setBkt_ne _ _ _ _ (Ne.symm hne)
      have hl1 : (setBkt st oldBid (bktRemove (bktAt st oldBid) p.1).2).buckets.length
          = st.buckets.length := by
        simp [setBkt]
      -- the target slot of p, expressed over the frozen directory
      have htgtp : dirAt (setBkt st oldBid (bktRemove (bktAt st oldBid) p.1).2)
          (indexOf hash (setBkt st oldBid (bktRemove (bktAt st oldBid) p.1).2) p.1)
          = D.getD (hash p.1 % 2 ^ g) 0 := by
        unfold dirAt indexOf
        rw [show (setBkt st oldBid (bktRemove (bktAt st oldBid) p.1).2).dir = st.dir from rfl]
        rw [show (setBkt st oldBid (bktRemove (bktAt st oldBid) p.1).2).globalDepth = st.globalDepth from rfl]
        rw [hdir, hg]
      rcases htgt p (List.mem_cons_self _ _) with hold | hnew
      · -- p returns to the old bucket
        have hins : bktInsert (bktAt (setBkt st oldBid (bktRemove (bktAt st oldBid) p.1).2) oldBid) p.1 p.2
            = (true, { bktAt st oldBid with list := (rem ++ accOld) ++ [(p.1, p.2)] }) := by
          rw [hbold1]
          rw [bktInsert_append _ _ _
            (by
              show (rem ++ accOld).length < (bktAt st oldBid).cap
              rw [hc1]
              simp only [List.length_append]
              omega)
            (by
              show ∀ q ∈ rem ++ accOld, q.1 ≠ p.1
              intro q hq
              exact Ne.symm (hp_not_old q hq))]
        have hstep : redistribute hash st oldBid (p :: rem)
            = redistribute hash
                (setBkt (setBkt st oldBid (bktRemove (bktAt st oldBid) p.1).2)
                  oldBid
                  { bktAt st oldBid with list := (rem ++ accOld) ++ [(p.1, p.2)] })
                oldBid rem := by
          simp only [redistribute]
          rw [htgtp, hold, hins]
        rw [hstep]
        have happ := ih (setBkt (setBkt st oldBid (bktRemove (bktAt st oldBid) p.1).2)
            oldBid { bktAt st oldBid with list := (rem ++ accOld) ++ [(p.1, p.2)] })
          (accOld ++ [(p.1, p.2)]) accNew (by exact hdir) (by exact hg)
          (by simp only [setBkt, List.length_set]; exact hol)
          (by simp only [setBkt, List.length_set]; exact hnl)
          (by
            rw [bktAt_setBkt_self _ _ _ (by rw [hl1]; exact hol)]
            simp [List.append_assoc])
          (by
            rw [bktAt_setBkt_ne _ _ _ _ (Ne.symm hne), hbnew1]
            exact h2)
          (by
            rw [bktAt_setBkt_self _ _ _ (by rw [hl1]; exact hol)]
            exact hc1)
          (by
            rw [bktAt_setBkt_ne _ _ _ _ (Ne.symm hne), hbnew1]
            exact hc2)
          (by
            simp only [List.length_append, List.length_cons, List.length_nil]
            omega)
          (by
            rw [← List.append_assoc]
            apply List.pairwise_append.mpr
            refine ⟨hpw_tail, by simp, ?_⟩
            intro a ha b hb
            simp only [List.mem_singleton] at hb
            rw [hb]
            exact Ne.symm (hp_not_old a ha))
          (by
            intro q hq r hr
            exact hdisj q (List.mem_cons_of_mem _ hq) r hr)
          (by
            intro q hq
            exact htgt q (List.mem_cons_of_mem _ hq))
        obtain ⟨c1, c2, c3, c4, c5, c6, c7, c8, c9, c10, c11, c12⟩ := happ
        refine ⟨?_, ?_, ?_, ?_, ?_, ?_, ?_, ?_, ?_, ?_, ?_, ?_⟩
        · rw [c1, List.filter_cons_of_pos (by rw [hold]; simp)]
          simp
        · rw [c2, List.filter_cons_of_neg (by rw [hold]; simp [hne])]
        · intro b hb1 hb2
          rw [c3 b hb1 hb2, bktAt_setBkt_ne _ _ _ _ hb1, bktAt_setBkt_ne _ _ _ _ hb1]
        · rw [c4]
          rfl
        · rw [c5]
          rfl
        · rw [c6]
          simp [setBkt]
        · rw [c7]
          rfl
        · rw [c8]
          rfl
        · rw [c9, bktAt_setBkt_self _ _ _ (by rw [hl1]; exact hol)]
        · rw [c10, bktAt_setBkt_ne _ _ _ _ (Ne.symm hne), hbnew1]
        · exact c11
        · exact c12
      · -- p moves to the new bucket
        have hins : bktInsert (bktAt (setBkt st oldBid (bktRemove (bktAt st oldBid) p.1).2) newBid) p.1 p.2
            = (true, { bktAt st newBid with list := accNew ++ [(p.1, p.2)] }) := by
          rw [hbnew1]
          rw [bktInsert_append _ _ _
            (by
              rw [h2, hc2]
              omega)
            (by
              rw [h2]
              intro q hq
              exact Ne.symm (hdisj p (List.mem_cons_self _ _) q hq))]
          rw [h2]
        have hstep : redistribute hash st oldBid (p :: rem)
            = redistribute hash
                (setBkt (setBkt st oldBid (bktRemove (bktAt st oldBid) p.1).2)
                  newBid
                  { bktAt st newBid with list := accNew ++ [(p.1, p.2)] })
                oldBid rem := by
          simp only [redistribute]
          rw [htgtp, hnew, hins]
        rw [hstep]
        have happ := ih (setBkt (setBkt st oldBid (bktRemove (bktAt st oldBid) p.1).2)
            newBid { bktAt st newBid with list := accNew ++ [(p.1, p.2)] })
          accOld (accNew ++ [(p.1, p.2)]) (by exact hdir) (by exact hg)
          (by simp only [setBkt, List.length_set]; exact hol)
          (by simp only [setBkt, List.length_set]; exact hnl)
          (by
            rw [bktAt_setBkt_ne _ _ _ _ hne, hbold1])
          (by
            rw [bktAt_setBkt_self _ _ _ (by rw [hl1]; exact hnl)])
          (by
            rw [bktAt_setBkt_ne _ _ _ _ hne, hbold1]
            exact hc1)
          (by
            rw [bktAt_setBkt_self _ _ _ (by rw [hl1]; exact hnl)]
            exact hc2)
          (by
            simp only [List.length_append, List.length_cons, List.length_nil]
            omega)
          hpw_tail
          (by
            intro q hq r hr
            rcases List.mem_append.mp hr with hr1 | hr1
            · exact hdisj q (List.mem_cons_of_mem _ hq) r hr1
            · simp only [List.mem_singleton] at hr1
              rw [hr1]
              exact Ne.symm (hp_not_old q (List.mem_append.mpr (Or.inl hq))))
          (by
            intro q hq
            exact htgt q (List.mem_cons_of_mem _ hq))
        obtain ⟨c1, c2, c3, c4, c5, c6, c7, c8, c9, c10, c11, c12⟩ := happ
        refine ⟨?_, ?_, ?_, ?_, ?_, ?_, ?_, ?_, ?_, ?_, ?_, ?_⟩
        · rw [c1, List.filter_cons_of_neg (by rw [hnew]; simp [Ne.symm hne])]
        · rw [c2, List.filter_cons_of_pos (by rw [hnew]; simp)]
          simp
        · intro b hb1 hb2
          rw [c3 b hb1 hb2, bktAt_setBkt_ne _ _ _ _ hb2, bktAt_setBkt_ne _ _ _ _ hb1]
        · rw [c4]
          rfl
        · rw [c5]
          rfl
        · rw [c6]
          simp [setBkt]
        · rw [c7]
          rfl
        · rw [c8]
          rfl
        · rw [c9, bktAt_setBkt_ne _ _ _ _ hne, hbold1]
        · rw [c10, bktAt_setBkt_self _ _ _ (by rw [hl1]; exact hnl)]
        · exact c11
        · exact c12

end EHT

namespace EHT

/-! ### Further entry-list and directory lemmas -/

theorem upsert_length (l : List (Nat × Nat)) (k v : Nat) :
    (upsertList l k v).length = l.length := by
  induction l with
  | nil => rfl
  | cons p t ih =>
      simp only [upsertList]
      by_cases h : (p.1 == k) = true
      · rw [if_pos h]
        simp
      · rw [if_neg h]
        simp [ih]

theorem upsert_mem_keys (l : List (Nat × Nat)) (k v : Nat) :
    ∀ q ∈ upsertList l k v, ∃ q₀ ∈ l, q₀.1 = q.1 := by
  induction l with
  | nil => intro q hq; exact absurd hq (by simp [upsertList])
  | cons p t ih =>
      intro q hq
      simp only [upsertList] at hq
      by_cases h : (p.1 == k) = true
      · rw [if_pos h] at hq
        rcases List.mem_cons.mp hq with rfl | hq'
        · exact ⟨p, List.mem_cons_self _ _, rfl⟩
        · exact ⟨q, List.mem_cons_of_mem _ hq', rfl⟩
      · rw [if_neg h] at hq
        rcases List.mem_cons.mp hq with rfl | hq'
        · exact ⟨q, List.mem_cons_self _ _, rfl⟩
        · obtain ⟨q₀, hq₀, hk⟩ := ih q hq'
          exact ⟨q₀, List.mem_cons_of_mem _ hq₀, hk⟩

theorem upsert_pairwise (l : List (Nat × Nat)) (k v : Nat)
    (h : l.Pairwise (fun p q => p.1 ≠ q.1)) :
    (upsertList l k v).Pairwise (fun p q => p.1 ≠ q.1) := by
  induction l with
  | nil => exact List.Pairwise.nil
  | cons p t ih =>
      obtain ⟨hhd, htl⟩ := List.pairwise_cons.mp h
      simp only [upsertList]
      by_cases hb : (p.1 == k) = true
      · rw [if_pos hb]
        exact List.pairwise_cons.mpr ⟨hhd, htl⟩
      · rw [if_neg hb]
        refine List.pairwise_cons.mpr ⟨?_, ih htl⟩
        intro q hq
        obtain ⟨q₀, hq₀, hk⟩ := upsert_mem_keys t k v q hq
        rw [← hk]
        exact hhd q₀ hq₀

/-- `find?` through an appended singleton whose key differs. -/
theorem find?_append_sing (l : List (Nat × Nat)) (k v k' : Nat) (hne : k' ≠ k) :
    (l ++ [(k, v)]).find? (fun p => p.1 == k')
      = l.find? (fun p => p.1 == k') := by
  rw [List.find?_append]
  rw [show ([((k, v) : Nat × Nat)].find? (fun p => p.1 == k')) = none by
    simp [Ne.symm hne]]
  cases l.find? (fun p => p.1 == k') <;> rfl

/-- Indexing a self-appended list wraps around modulo the length. -/
theorem getD_double {α : Type _} (l : List α) (j : Nat) (d : α)
    (h : j < 2 * l.length) :
    (l ++ l).getD j d = l.getD (j % l.length) d := by
  by_cases hj : j < l.length
  · rw [List.getD_append _ _ _ _ hj, Nat.mod_eq_of_lt hj]
  · have hle : l.length ≤ j := Nat.le_of_not_lt hj
    have hl0 : 0 < l.length := by omega
    rw [List.getD_append_right _ _ _ _ hle]
    have : j % l.length = j - l.length := by
      rw [Nat.mod_eq_sub_mod hle, Nat.mod_eq_of_lt (by omega)]
    rw [this]

/-- Indexing past an appended singleton (any index other than the seam). -/
theorem getD_append_sing_ne {α : Type _} (l : List α) (x : α) (j : Nat) (d : α)
    (h : j ≠ l.length) :
    (l ++ [x]).getD j d = l.getD j d := by
  by_cases hj : j < l.length
  · rw [List.getD_append _ _ _ _ hj]
  · have : l.length + 1 ≤ j := by omega
    rw [getD_default_of_le _ _ (by simp; omega), getD_default_of_le _ _ (by omega)]

/-- The seam slot of an appended singleton. -/
theorem getD_append_sing_self {α : Type _} (l : List α) (x : α) (d : α) :
    (l ++ [x]).getD l.length d = x := by
  rw [List.getD_append_right _ _ _ _ (Nat.le_refl _)]
  simp [List.getD]

/-- A residue modulo `2^d` lifts to one of two residues modulo `2^(d+1)`. -/
theorem cong_step_cases (a b d : Nat) (h : a % 2 ^ d = b % 2 ^ d) :
    a % 2 ^ (d + 1) = b % 2 ^ (d + 1) ∨
    a % 2 ^ (d + 1) = (b + 2 ^ d) % 2 ^ (d + 1) := by
  have hpow : 2 ^ (d + 1) = 2 * 2 ^ d := by rw [Nat.pow_succ]; ring
  have hpos : 0 < 2 ^ d := Nat.pos_pow_of_pos _ (by omega)
  have hma : a % 2 ^ (d + 1) % 2 ^ d = a % 2 ^ d := mod_mod_of_le a d (d + 1) (by omega)
  have hmb : b % 2 ^ (d + 1) % 2 ^ d = b % 2 ^ d := mod_mod_of_le b d (d + 1) (by omega)
  have hba : a % 2 ^ (d + 1) < 2 ^ (d + 1) := Nat.mod_lt _ (by positivity)
  have hbb : b % 2 ^ (d + 1) < 2 ^ (d + 1) := Nat.mod_lt _ (by positivity)
  have hra : a % 2 ^ d < 2 ^ d := Nat.mod_lt _ hpos
  have hsb : (b + 2 ^ d) % 2 ^ (d + 1)
      = (b % 2 ^ (d + 1) + 2 ^ d) % 2 ^ (d + 1) :=
    (Nat.mod_add_mod b (2 ^ (d + 1)) (2 ^ d)).symm
  have hAcase : a % 2 ^ (d + 1) = a % 2 ^ d ∨ a % 2 ^ (d + 1) = a % 2 ^ d + 2 ^ d := by
    by_cases hA : a % 2 ^ (d + 1) < 2 ^ d
    · left
      rw [← hma, Nat.mod_eq_of_lt hA]
    · right
      have h1 : 2 ^ d ≤ a % 2 ^ (d + 1) := Nat.le_of_not_lt hA
      have h2 : a % 2 ^ (d + 1) % 2 ^ d = a % 2 ^ (d + 1) - 2 ^ d := by
        rw [Nat.mod_eq_sub_mod h1, Nat.mod_eq_of_lt (by omega)]
      rw [← hma, h2]
      omega
  have hBcase : b % 2 ^ (d + 1) = b % 2 ^ d ∨ b % 2 ^ (d + 1) = b % 2 ^ d + 2 ^ d := by
    by_cases hB : b % 2 ^ (d + 1) < 2 ^ d
    · left
      rw [← hmb, Nat.mod_eq_of_lt hB]
    · right
      have h1 : 2 ^ d ≤ b % 2 ^ (d + 1) := Nat.le_of_not_lt hB
      have h2 : b % 2 ^ (d + 1) % 2 ^ d = b % 2 ^ (d + 1) - 2 ^ d := by
        rw [Nat.mod_eq_sub_mod h1, Nat.mod_eq_of_lt (by omega)]
      rw [← hmb, h2]
      omega
  rcases hAcase with hA | hA <;> rcases hBcase with hB | hB
  · left; omega
  · right
    rw [hsb, hB]
    have hb2 : b % 2 ^ d + 2 ^ d + 2 ^ d = b % 2 ^ d + 2 ^ (d + 1) := by omega
    have hlt : b % 2 ^ d < 2 ^ (d + 1) := by omega
    rw [hb2, Nat.add_mod_right, Nat.mod_eq_of_lt hlt]
    omega
  · right
    have hlt : b % 2 ^ d + 2 ^ d < 2 ^ (d + 1) := by omega
    rw [hsb, hB, Nat.mod_eq_of_lt hlt]
    omega
  · left; omega

end EHT

namespace EHT

/-- Doubling the directory (`dir_ ++ dir_`, `global_depth_ + 1`) preserves
the representation invariant and the key-value mapping: slot `j` of the
doubled directory aliases slot `j mod 2^global_depth` of the old one. -/
theorem double_ok (hash : Nat → Nat) (st : Tbl) (hwf : WFE hash st) :
    WFE hash { st with globalDepth := st.globalDepth + 1, dir := st.dir ++ st.dir } ∧
    (∀ k', findE hash { st with globalDepth := st.globalDepth + 1, dir := st.dir ++ st.dir } k'
        = findE hash st k') := by
  obtain ⟨W1, W2, W3, W4, W5, W6, W7, W8, W9⟩ := hwf
  have hgpos : (0:Nat) < 2 ^ st.globalDepth := Nat.pos_pow_of_pos _ (by omega)
  have hB : ∀ c, bktAt { st with globalDepth := st.globalDepth + 1, dir := st.dir ++ st.dir } c = bktAt st c := fun c => rfl
  have hW1D : ({ st with globalDepth := st.globalDepth + 1, dir := st.dir ++ st.dir } : Tbl).dir.length = 2 ^ (st.globalDepth + 1) := by
    show (st.dir ++ st.dir).length = 2 ^ (st.globalDepth + 1)
    rw [List.length_append, W1, Nat.pow_succ]
    omega
  have hD : ∀ j, j < 2 ^ (st.globalDepth + 1) →
      dirAt { st with globalDepth := st.globalDepth + 1, dir := st.dir ++ st.dir } j = dirAt st (j % 2 ^ st.globalDepth) := by
    intro j hj
    show (st.dir ++ st.dir).getD j 0 = st.dir.getD (j % 2 ^ st.globalDepth) 0
    rw [getD_double st.dir j 0 (by rw [W1]; rw [Nat.pow_succ] at hj; omega), W1]
  have hjm : ∀ j : Nat, j % 2 ^ st.globalDepth < st.dir.length := by
    intro j
    rw [W1]
    exact Nat.mod_lt _ hgpos
  constructor
  · refine ⟨hW1D, ?_, ?_, ?_, ?_, ?_, ?_, ?_, ?_⟩
    · intro j hj
      rw [hW1D] at hj
      rw [hD j hj]
      exact W2 _ (hjm j)
    · intro j hj
      rw [hW1D] at hj
      rw [hD j hj, hB]
      show (bktAt st (dirAt st (j % 2 ^ st.globalDepth))).depth ≤ st.globalDepth + 1
      exact Nat.le_succ_of_le (W3 _ (hjm j))
    · intro j hj j' hj' hcong
      rw [hW1D] at hj hj'
      rw [hD j hj] at hcong ⊢
      rw [hD j' hj']
      simp only [hB] at hcong ⊢
      have he := W3 _ (hjm j)
      apply W4 _ (hjm j) _ (hjm j')
      rw [mod_mod_of_le j _ _ he, mod_mod_of_le j' _ _ he]
      exact hcong
    · intro j hj j' hj' heq
      rw [hW1D] at hj hj'
      rw [hD j hj] at heq ⊢
      rw [hD j' hj'] at heq
      simp only [hB]
      have he := W3 _ (hjm j)
      have := W5 _ (hjm j) _ (hjm j') heq
      rw [mod_mod_of_le j _ _ he, mod_mod_of_le j' _ _ he] at this
      exact this
    · intro j hj p hp
      rw [hW1D] at hj
      rw [hD j hj] at hp ⊢
      simp only [hB] at hp ⊢
      have he := W3 _ (hjm j)
      rw [← mod_mod_of_le j _ _ he]
      exact W6 _ (hjm j) p hp
    · intro j hj
      rw [hW1D] at hj
      rw [hD j hj]
      simp only [hB]
      exact W7 _ (hjm j)
    · intro j hj
      rw [hW1D] at hj
      rw [hD j hj]
      simp only [hB]
      show (bktAt st (dirAt st (j % 2 ^ st.globalDepth))).cap = st.bucketSize
      exact W8 _ (hjm j)
    · intro j hj
      rw [hW1D] at hj
      rw [hD j hj]
      simp only [hB]
      exact W9 _ (hjm j)
  · intro k'
    show bktFind (bktAt { st with globalDepth := st.globalDepth + 1, dir := st.dir ++ st.dir }
        (dirAt { st with globalDepth := st.globalDepth + 1, dir := st.dir ++ st.dir }
          (hash k' % 2 ^ (st.globalDepth + 1)))) k'
      = bktFind (bktAt st (dirAt st (hash k' % 2 ^ st.globalDepth))) k'
    rw [hD _ (Nat.mod_lt _ (Nat.pos_pow_of_pos _ (by omega))), hB]
    rw [mod_mod_of_le (hash k') _ _ (Nat.le_succ _)]

end EHT

namespace EHT

/-- A successful `Bucket::Insert` through the directory (upsert of an
existing key or append of a fresh one into a non-full bucket) preserves
the representation invariant, makes the inserted key findable with the new
value, and leaves every other key's lookup unchanged. -/
theorem insert_success (hash : Nat → Nat) (st : Tbl) (k v : Nat) (hwf : WFE hash st)
    (hok : (bktInsert (bktAt st (dirAt st (indexOf hash st k))) k v).1 = true) :
    WFE hash (setBkt st (dirAt st (indexOf hash st k))
        (bktInsert (bktAt st (dirAt st (indexOf hash st k))) k v).2) ∧
    findE hash (setBkt st (dirAt st (indexOf hash st k))
        (bktInsert (bktAt st (dirAt st (indexOf hash st k))) k v).2) k = some v ∧
    (∀ k', k' ≠ k → findE hash (setBkt st (dirAt st (indexOf hash st k))
        (bktInsert (bktAt st (dirAt st (indexOf hash st k))) k v).2) k'
      = findE hash st k') := by
  obtain ⟨W1, W2, W3, W4, W5, W6, W7, W8, W9⟩ := hwf
  have hgpos : (0:Nat) < 2 ^ st.globalDepth := Nat.pos_pow_of_pos _ (by omega)
  have hidx : indexOf hash st k < st.dir.length := by
    show hash k % 2 ^ st.globalDepth < st.dir.length
    rw [W1]
    exact Nat.mod_lt _ hgpos
  set bid := dirAt st (indexOf hash st k) with hbiddef
  have hbid : bid < st.buckets.length := W2 _ hidx
  have hfull : bktIsFull (bktAt st bid) = false := by
    by_contra hf
    have hf' : bktIsFull (bktAt st bid) = true := by
      cases h : bktIsFull (bktAt st bid)
      · exact absurd h hf
      · rfl
    unfold bktInsert at hok
    rw [if_pos hf'] at hok
    exact absurd hok (by simp)
  have hroom : (bktAt st bid).list.length < (bktAt st bid).cap := by
    unfold bktIsFull at hfull
    simpa using hfull
  set b' := (bktInsert (bktAt st (dirAt st (indexOf hash st k))) k v).2 with hbpdef
  have hchar :
      b'.depth = (bktAt st bid).depth ∧
      b'.cap = (bktAt st bid).cap ∧
      (∀ q ∈ b'.list, (∃ q₀ ∈ (bktAt st bid).list, q₀.1 = q.1) ∨ q.1 = k) ∧
      b'.list.Pairwise (fun p q => p.1 ≠ q.1) ∧
      b'.list.length ≤ (bktAt st bid).cap ∧
      b'.list.find? (fun p => p.1 == k) = some (k, v) ∧
      (∀ k', k' ≠ k → b'.list.find? (fun p => p.1 == k')
        = (bktAt st bid).list.find? (fun p => p.1 == k')) := by
    rw [hbpdef]
    cases hany : (bktAt st bid).list.any (fun p => p.1 == k) with
    | true =>
        have hb2 : (bktInsert (bktAt st (dirAt st (indexOf hash st k))) k v).2
            = { bktAt st bid with list := upsertList (bktAt st bid).list k v } := by
          unfold bktInsert
          rw [← hbiddef, if_neg (by rw [hfull]; simp), if_pos hany]
        rw [hb2]
        have hex : ∃ p ∈ (bktAt st bid).list, p.1 = k := by
          obtain ⟨p, hp, hpk⟩ := List.any_eq_true.mp hany
          exact ⟨p, hp, by simpa using hpk⟩
        refine ⟨rfl, rfl, ?_, ?_, ?_, ?_, ?_⟩
        · intro q hq
          exact Or.inl (upsert_mem_keys _ k v q hq)
        · exact upsert_pairwise _ k v (W7 _ hidx)
        · rw [upsert_length]
          exact W9 _ hidx
        · exact upsert_find_self _ k v hex
        · intro k' hk'
          exact upsert_find_other _ k v k' hk'
    | false =>
        have hb2 : (bktInsert (bktAt st (dirAt st (indexOf hash st k))) k v).2
            = { bktAt st bid with list := (bktAt st bid).list ++ [(k, v)] } := by
          unfold bktInsert
          rw [← hbiddef, if_neg (by rw [hfull]; simp), if_neg (by rw [hany]; simp)]
        have hnotin : ∀ q ∈ (bktAt st bid).list, ¬ q.1 = k := by
          intro q hq
          have := List.any_eq_false.mp hany q hq
          simpa using this
        rw [hb2]
        refine ⟨rfl, rfl, ?_, ?_, ?_, ?_, ?_⟩
        · intro q hq
          rcases List.mem_append.mp hq with hq' | hq'
          · exact Or.inl ⟨q, hq', rfl⟩
          · simp only [List.mem_singleton] at hq'
            rw [hq']
            exact Or.inr rfl
        · apply List.pairwise_append.mpr
          refine ⟨W7 _ hidx, by simp, ?_⟩
          intro a ha b hb
          simp only [List.mem_singleton] at hb
          rw [hb]
          exact hnotin a ha
        · rw [List.length_append]
          simp only [List.length_cons, List.length_nil]
          omega
        · rw [find?_append_none _ _ _ (by
            rw [List.find?_eq_none]
            intro q hq
            simpa using hnotin q hq)]
          simp
        · intro k' hk'
          exact find?_append_sing _ k v k' hk'
  obtain ⟨P1, P2, P3, P4, P5, P6, P7⟩ := hchar
  have hdirAt : ∀ j, dirAt (setBkt st bid b') j = dirAt st j := fun _ => rfl
  have hself : bktAt (setBkt st bid b') bid = b' := bktAt_setBkt_self st bid b' hbid
  have hne : ∀ c, c ≠ bid → bktAt (setBkt st bid b') c = bktAt st c :=
    fun c hc => bktAt_setBkt_ne st bid c b' hc
  have hdepth : ∀ c, (bktAt (setBkt st bid b') c).depth = (bktAt st c).depth := by
    intro c
    by_cases hc : c = bid
    · rw [hc, hself, P1]
    · rw [hne c hc]
  have hcap : ∀ c, (bktAt (setBkt st bid b') c).cap = (bktAt st c).cap := by
    intro c
    by_cases hc : c = bid
    · rw [hc, hself, P2]
    · rw [hne c hc]
  have hkclass : ∀ j, j < st.dir.length → dirAt st j = bid →
      hash k % 2 ^ (bktAt st (dirAt st j)).depth = j % 2 ^ (bktAt st (dirAt st j)).depth := by
    intro j hj hjbid
    have h5 := W5 _ hj _ hidx (hbiddef.symm.trans hjbid.symm)
    have he : (bktAt st (dirAt st j)).depth ≤ st.globalDepth := W3 _ hj
    have h5' : j % 2 ^ (bktAt st (dirAt st j)).depth
        = hash k % 2 ^ st.globalDepth % 2 ^ (bktAt st (dirAt st j)).depth := h5
    rw [← mod_mod_of_le (hash k) _ _ he]
    omega
  refine ⟨⟨?_, ?_, ?_, ?_, ?_, ?_, ?_, ?_, ?_⟩, ?_, ?_⟩
  · exact W1
  · intro j hj
    show dirAt st j < (st.buckets.set bid b').length
    rw [List.length_set]
    exact W2 _ hj
  · intro j hj
    simp only [hdirAt, hdepth]
    exact W3 _ hj
  · intro j hj j' hj' hcong
    simp only [hdirAt, hdepth] at hcong ⊢
    exact W4 _ hj _ hj' hcong
  · intro j hj j' hj' heq
    simp only [hdirAt, hdepth] at heq ⊢
    exact W5 _ hj _ hj' heq
  · intro j hj p hp
    simp only [hdirAt, hdepth] at hp ⊢
    by_cases hc : dirAt st j = bid
    · rw [hc, hself] at hp
      rcases P3 p hp with ⟨q₀, hq₀, hq₀k⟩ | hpk
      · rw [← hq₀k]
        have := W6 _ hj q₀ (by rw [hc]; exact hq₀)
        rw [hc]
        rw [hc] at this
        exact this
      · rw [hpk]
        exact hkclass j hj hc
    · rw [hne _ hc] at hp
      exact W6 _ hj p hp
  · intro j hj
    simp only [hdirAt]
    by_cases hc : dirAt st j = bid
    · rw [hc, hself]
      exact P4
    · rw [hne _ hc]
      exact W7 _ hj
  · intro j hj
    simp only [hdirAt, hcap]
    exact W8 _ hj
  · intro j hj
    simp only [hdirAt, hcap]
    by_cases hc : dirAt st j = bid
    · rw [hc, hself]
      exact P5
    · rw [hne _ hc]
      exact W9 _ hj
  · show bktFind (bktAt (setBkt st bid b')
        (dirAt (setBkt st bid b') (indexOf hash (setBkt st bid b') k))) k = some v
    rw [show indexOf hash (setBkt st bid b') k = indexOf hash st k from rfl,
        hdirAt, ← hbiddef, hself]
    unfold bktFind
    rw [P6]
    rfl
  · intro k' hk'
    show bktFind (bktAt (setBkt st bid b')
        (dirAt (setBkt st bid b') (indexOf hash (setBkt st bid b') k'))) k'
      = bktFind (bktAt st (dirAt st (indexOf hash st k'))) k'
    rw [show indexOf hash (setBkt st bid b') k' = indexOf hash st k' from rfl, hdirAt]
    by_cases hc : dirAt st (indexOf hash st k') = bid
    · rw [hc, hself]
      unfold bktFind
      rw [P7 k' hk']
    · rw [hne _ hc]

end EHT

namespace EHT

/-- The directory after `splitInstall`, phrased through `dir2_spec`:
slots congruent to `index` modulo twice the old local depth's power keep
the old bucket, the shifted class gets the new bucket id, all other slots
are untouched. -/
theorem splitInstall_dir_spec (st1 : Tbl) (index : Nat)
    (W1 : st1.dir.length = 2 ^ st1.globalDepth)
    (hidx : index < 2 ^ st1.globalDepth) :
    ((splitInstall st1 index).dir.length = st1.dir.length) ∧
    (∀ j, j % 2 ^ (bktAt st1 (dirAt st1 index)).depth
        ≠ index % 2 ^ (bktAt st1 (dirAt st1 index)).depth →
      (splitInstall st1 index).dir.getD j 0 = st1.dir.getD j 0) ∧
    (∀ j, j < 2 ^ st1.globalDepth →
      j % 2 ^ ((bktAt st1 (dirAt st1 index)).depth + 1)
        = index % 2 ^ ((bktAt st1 (dirAt st1 index)).depth + 1) →
      (splitInstall st1 index).dir.getD j 0 = dirAt st1 index) ∧
    (∀ j, j < 2 ^ st1.globalDepth →
      j % 2 ^ ((bktAt st1 (dirAt st1 index)).depth + 1)
        = (index + 2 ^ (bktAt st1 (dirAt st1 index)).depth)
            % 2 ^ ((bktAt st1 (dirAt st1 index)).depth + 1) →
      (splitInstall st1 index).dir.getD j 0 = st1.buckets.length) := by
  have h2s : 2 * 2 ^ (bktAt st1 (dirAt st1 index)).depth
      = 2 ^ ((bktAt st1 (dirAt st1 index)).depth + 1) := by
    rw [Nat.pow_succ]
    ring
  obtain ⟨h1, h2, h3, h4⟩ := dir2_spec st1.dir (dirAt st1 index) st1.buckets.length
      (2 ^ (bktAt st1 (dirAt st1 index)).depth) (2 ^ st1.globalDepth) index
      (Nat.pos_pow_of_pos _ (by omega)) W1 hidx
  have hdir3 : (splitInstall st1 index).dir
      = walkDown (walkUp st1.dir (dirAt st1 index) st1.buckets.length
          (2 ^ (bktAt st1 (dirAt st1 index)).depth) (2 ^ st1.globalDepth) index false
          (2 ^ st1.globalDepth + 1))
        (dirAt st1 index) st1.buckets.length (2 ^ (bktAt st1 (dirAt st1 index)).depth)
        index false (index + 1) := rfl
  refine ⟨?_, ?_, ?_, ?_⟩
  · rw [hdir3]
    exact h1
  · intro j hj
    rw [hdir3]
    exact h2 j hj
  · intro j hjb hjc
    rw [hdir3]
    apply h3 j hjb
    rw [h2s]
    exact hjc
  · intro j hjb hjc
    rw [hdir3]
    apply h4 j hjb
    rw [h2s]
    exact hjc

/-- The bucket store after `splitInstall`: one fresh empty bucket of the
old local depth appended, everything else untouched. -/
theorem splitInstall_bkt (st1 : Tbl) (index : Nat) :
    (∀ c, c ≠ st1.buckets.length →
      bktAt (splitInstall st1 index) c = bktAt st1 c) ∧
    bktAt (splitInstall st1 index) st1.buckets.length
      = ⟨st1.bucketSize, (bktAt st1 (dirAt st1 index)).depth, []⟩ ∧
    (splitInstall st1 index).buckets.length = st1.buckets.length + 1 := by
  refine ⟨?_, ?_, ?_⟩
  · intro c hc
    show (st1.buckets
        ++ [(⟨st1.bucketSize, (bktAt st1 (dirAt st1 index)).depth, []⟩ : Bkt)]).getD c ⟨0, 0, []⟩
      = st1.buckets.getD c ⟨0, 0, []⟩
    exact getD_append_sing_ne _ _ _ _ hc
  · show (st1.buckets
        ++ [(⟨st1.bucketSize, (bktAt st1 (dirAt st1 index)).depth, []⟩ : Bkt)]).getD
          st1.buckets.length ⟨0, 0, []⟩ = _
    exact getD_append_sing_self _ _ _
  · show (st1.buckets
        ++ [(⟨st1.bucketSize, (bktAt st1 (dirAt st1 index)).depth, []⟩ : Bkt)]).length = _
    simp

end EHT

namespace EHT

/-- The full split sequence preserves the representation invariant and
the key-value mapping, provided the split bucket's local depth is strictly
below the global depth (guaranteed by the preceding doubling). -/
theorem split_core (hash : Nat → Nat) (st1 : Tbl) (index : Nat)
    (hwf : WFE hash st1) (hidx : index < st1.dir.length)
    (hd : (bktAt st1 (dirAt st1 index)).depth < st1.globalDepth) :
    WFE hash (splitAt hash st1 index) ∧
    (∀ k', findE hash (splitAt hash st1 index) k' = findE hash st1 k') := by
  obtain ⟨W1, W2, W3, W4, W5, W6, W7, W8, W9⟩ := hwf
  have hgpos : (0:Nat) < 2 ^ st1.globalDepth := Nat.pos_pow_of_pos _ (by omega)
  have hidx2 : index < 2 ^ st1.globalDepth := by
    rw [← W1]
    exact hidx
  have hbidlt : dirAt st1 index < st1.buckets.length := W2 _ hidx
  have hbidne : dirAt st1 index ≠ st1.buckets.length := Nat.ne_of_lt hbidlt
  have hDG : (bktAt st1 (dirAt st1 index)).depth + 1 ≤ st1.globalDepth := hd
  obtain ⟨hilen, hiA, hiB, hiC⟩ := splitInstall_dir_spec st1 index W1 hidx2
  obtain ⟨hbo, hbL, hblen⟩ := splitInstall_bkt st1 index
  have hd3idx : dirAt (splitInstall st1 index) index = dirAt st1 index := hiB index hidx2 rfl
  have hremeq : (bktAt (splitInstall st1 index) (dirAt (splitInstall st1 index) index)).list
      = (bktAt st1 (dirAt st1 index)).list := by
    rw [hd3idx, hbo _ hbidne]
  -- classification of the rewritten directory
  have hold_ne_bid : ∀ j, j < st1.dir.length →
      j % 2 ^ (bktAt st1 (dirAt st1 index)).depth
        ≠ index % 2 ^ (bktAt st1 (dirAt st1 index)).depth →
      dirAt st1 j ≠ dirAt st1 index := by
    intro j hj hnc heq
    exact hnc (W5 index hidx j hj heq).symm
  have hclass : ∀ j, j < 2 ^ st1.globalDepth →
      (j % 2 ^ (bktAt st1 (dirAt st1 index)).depth
          ≠ index % 2 ^ (bktAt st1 (dirAt st1 index)).depth ∧
        (splitInstall st1 index).dir.getD j 0 = st1.dir.getD j 0) ∨
      (j % 2 ^ ((bktAt st1 (dirAt st1 index)).depth + 1)
          = index % 2 ^ ((bktAt st1 (dirAt st1 index)).depth + 1) ∧
        (splitInstall st1 index).dir.getD j 0 = dirAt st1 index) ∨
      (j % 2 ^ ((bktAt st1 (dirAt st1 index)).depth + 1)
          = (index + 2 ^ (bktAt st1 (dirAt st1 index)).depth)
              % 2 ^ ((bktAt st1 (dirAt st1 index)).depth + 1) ∧
        (splitInstall st1 index).dir.getD j 0 = st1.buckets.length) := by
    intro j hj
    by_cases hc : j % 2 ^ (bktAt st1 (dirAt st1 index)).depth
        = index % 2 ^ (bktAt st1 (dirAt st1 index)).depth
    · rcases cong_step_cases j index _ hc with h1 | h1
      · exact Or.inr (Or.inl ⟨h1, hiB j hj h1⟩)
      · exact Or.inr (Or.inr ⟨h1, hiC j hj h1⟩)
    · exact Or.inl ⟨hc, hiA j hc⟩
  have hval_bid : ∀ j, j < 2 ^ st1.globalDepth →
      (splitInstall st1 index).dir.getD j 0 = dirAt st1 index →
      j % 2 ^ ((bktAt st1 (dirAt st1 index)).depth + 1)
        = index % 2 ^ ((bktAt st1 (dirAt st1 index)).depth + 1) := by
    intro j hj hv
    rcases hclass j hj with ⟨hnc, he⟩ | ⟨hc, _⟩ | ⟨_, he⟩
    · exfalso
      rw [he] at hv
      exact hold_ne_bid j (by rw [W1]; exact hj) hnc hv
    · exact hc
    · exfalso
      rw [he] at hv
      exact hbidne hv.symm
  have hval_L : ∀ j, j < 2 ^ st1.globalDepth →
      (splitInstall st1 index).dir.getD j 0 = st1.buckets.length →
      j % 2 ^ ((bktAt st1 (dirAt st1 index)).depth + 1)
        = (index + 2 ^ (bktAt st1 (dirAt st1 index)).depth)
            % 2 ^ ((bktAt st1 (dirAt st1 index)).depth + 1) := by
    intro j hj hv
    rcases hclass j hj with ⟨_, he⟩ | ⟨_, he⟩ | ⟨hc, _⟩
    · exfalso
      rw [he] at hv
      have hv' : dirAt st1 j = st1.buckets.length := hv
      have hlt := W2 j (by rw [W1]; exact hj)
      omega
    · exfalso
      rw [he] at hv
      exact hbidne hv
    · exact hc
  -- the redistribution
  have hred := redistribute_spec hash ((splitInstall st1 index).dir) st1.globalDepth
      st1.bucketSize (dirAt st1 index) st1.buckets.length hbidne
      ((bktAt (splitInstall st1 index) (dirAt (splitInstall st1 index) index)).list)
      (splitInstall st1 index) [] [] rfl rfl
      (by rw [hblen]; omega)
      (by rw [hblen]; omega)
      (by rw [List.append_nil, hremeq, hbo _ hbidne])
      (by rw [hbL])
      (by rw [hbo _ hbidne]; exact W8 _ hidx)
      (by rw [hbL])
      (by
        simp only [List.length_nil, Nat.add_zero]
        rw [hremeq]
        rw [← W8 index hidx]
        exact W9 _ hidx)
      (by
        rw [List.append_nil, hremeq]
        exact W7 _ hidx)
      (by
        intro p hp q hq
        exact absurd hq (List.not_mem_nil q))
      (by
        intro p hp
        rw [hremeq] at hp
        have hW6p := W6 index hidx p hp
        have hjp : hash p.1 % 2 ^ st1.globalDepth < 2 ^ st1.globalDepth := Nat.mod_lt _ hgpos
        have hcong : (hash p.1 % 2 ^ st1.globalDepth)
              % 2 ^ (bktAt st1 (dirAt st1 index)).depth
            = index % 2 ^ (bktAt st1 (dirAt st1 index)).depth := by
          rw [mod_mod_of_le _ _ _ (Nat.le_of_lt hd)]
          exact hW6p
        rcases cong_step_cases (hash p.1 % 2 ^ st1.globalDepth) index _ hcong with h1 | h1
        · exact Or.inl (hiB _ hjp h1)
        · exact Or.inr (hiC _ hjp h1))
  obtain ⟨c1, c2, c3, c4, c5, c6, c7, c8, c9, c10, c11, c12⟩ := hred
  set R := redistribute hash (splitInstall st1 index) (dirAt st1 index)
      ((bktAt (splitInstall st1 index) (dirAt (splitInstall st1 index) index)).list) with hRdef
  rw [List.nil_append, hremeq] at c1 c2
  set st5x := setBkt R (dirAt st1 index)
      { bktAt R (dirAt st1 index) with depth := (bktAt R (dirAt st1 index)).depth + 1 } with hst5x
  set st6x := setBkt st5x st1.buckets.length
      { bktAt st5x st1.buckets.length with
        depth := (bktAt st5x st1.buckets.length).depth + 1 } with hst6x
  have eF : ∀ c, bktAt (splitAt hash st1 index) c = bktAt st6x c := fun c => rfl
  have eFdir : (splitAt hash st1 index).dir = R.dir := rfl
  have eFg : (splitAt hash st1 index).globalDepth = R.globalDepth := rfl
  have eFbs : (splitAt hash st1 index).bucketSize = R.bucketSize := rfl
  have eFbk : (splitAt hash st1 index).buckets = st6x.buckets := rfl
  have hFg : (splitAt hash st1 index).globalDepth = st1.globalDepth := by
    rw [eFg, c5]
    rfl
  have hFbs : (splitAt hash st1 index).bucketSize = st1.bucketSize := by
    rw [eFbs, c7]
    rfl
  have hFdir2 : ∀ j, dirAt (splitAt hash st1 index) j
      = (splitInstall st1 index).dir.getD j 0 := by
    intro j
    show (splitAt hash st1 index).dir.getD j 0 = _
    rw [eFdir, c4]
  have hFdirlen : (splitAt hash st1 index).dir.length = st1.dir.length := by
    show ((splitAt hash st1 index).dir).length = _
    rw [eFdir, c4, hilen]
  have hbidltR : dirAt st1 index < R.buckets.length := by
    rw [c6, hblen]
    omega
  have hLltR : st1.buckets.length < R.buckets.length := by
    rw [c6, hblen]
    omega
  have h5len : st5x.buckets.length = R.buckets.length := by
    rw [hst5x]
    simp [setBkt]
  have hFblen : (splitAt hash st1 index).buckets.length = st1.buckets.length + 1 := by
    rw [eFbk, hst6x]
    show ((st5x.buckets.set st1.buckets.length _)).length = _
    rw [List.length_set, h5len, c6, hblen]
  have e5self : bktAt st5x (dirAt st1 index)
      = { bktAt R (dirAt st1 index) with depth := (bktAt R (dirAt st1 index)).depth + 1 } := by
    rw [hst5x]
    exact bktAt_setBkt_self _ _ _ hbidltR
  have e5ne : ∀ c, c ≠ dirAt st1 index → bktAt st5x c = bktAt R c := by
    intro c hc
    rw [hst5x]
    exact bktAt_setBkt_ne _ _ _ _ hc
  have e6self : bktAt st6x st1.buckets.length
      = { bktAt st5x st1.buckets.length with
          depth := (bktAt st5x st1.buckets.length).depth + 1 } := by
    rw [hst6x]
    exact bktAt_setBkt_self _ _ _ (by rw [h5len]; exact hLltR)
  have e6ne : ∀ c, c ≠ st1.buckets.length → bktAt st6x c = bktAt st5x c := by
    intro c hc
    rw [hst6x]
    exact bktAt_setBkt_ne _ _ _ _ hc
  have hFold : (bktAt (splitAt hash st1 index) (dirAt st1 index)).cap = st1.bucketSize ∧
      (bktAt (splitAt hash st1 index) (dirAt st1 index)).depth
        = (bktAt st1 (dirAt st1 index)).depth + 1 ∧
      (bktAt (splitAt hash st1 index) (dirAt st1 index)).list
        = ((bktAt st1 (dirAt st1 index)).list).filter
            (fun p => (splitInstall st1 index).dir.getD (hash p.1 % 2 ^ st1.globalDepth) 0
              == dirAt st1 index) := by
    rw [eF, e6ne _ hbidne, e5self]
    refine ⟨c11, ?_, c1⟩
    show (bktAt R (dirAt st1 index)).depth + 1 = _
    rw [c9, hbo _ hbidne]
  have hFnew : (bktAt (splitAt hash st1 index) st1.buckets.length).cap = st1.bucketSize ∧
      (bktAt (splitAt hash st1 index) st1.buckets.length).depth
        = (bktAt st1 (dirAt st1 index)).depth + 1 ∧
      (bktAt (splitAt hash st1 index) st1.buckets.length).list
        = ((bktAt st1 (dirAt st1 index)).list).filter
            (fun p => (splitInstall st1 index).dir.getD (hash p.1 % 2 ^ st1.globalDepth) 0
              == st1.buckets.length) := by
    rw [eF, e6self, e5ne _ (Ne.symm hbidne)]
    refine ⟨c12, ?_, c2⟩
    show (bktAt R st1.buckets.length).depth + 1 = _
    rw [c10, hbL]
  obtain ⟨hoCap, hoDepth, hoList⟩ := hFold
  obtain ⟨hnCap, hnDepth, hnList⟩ := hFnew
  have hFoth : ∀ c, c ≠ dirAt st1 index → c ≠ st1.buckets.length →
      bktAt (splitAt hash st1 index) c = bktAt st1 c := by
    intro c h1 h2
    rw [eF, e6ne _ h2, e5ne _ h1, c3 c h1 h2, hbo _ h2]
  have hmem_old : ∀ p, p ∈ ((bktAt st1 (dirAt st1 index)).list).filter
        (fun p => (splitInstall st1 index).dir.getD (hash p.1 % 2 ^ st1.globalDepth) 0
          == dirAt st1 index) →
      hash p.1 % 2 ^ ((bktAt st1 (dirAt st1 index)).depth + 1)
        = index % 2 ^ ((bktAt st1 (dirAt st1 index)).depth + 1) := by
    intro p hp
    have hf := List.of_mem_filter hp
    have hfd : (splitInstall st1 index).dir.getD (hash p.1 % 2 ^ st1.globalDepth) 0
        = dirAt st1 index := by simpa using hf
    have hjp : hash p.1 % 2 ^ st1.globalDepth < 2 ^ st1.globalDepth := Nat.mod_lt _ hgpos
    have h1 := hval_bid _ hjp hfd
    rw [← mod_mod_of_le (hash p.1) ((bktAt st1 (dirAt st1 index)).depth + 1)
        st1.globalDepth hDG]
    exact h1
  have hmem_new : ∀ p, p ∈ ((bktAt st1 (dirAt st1 index)).list).filter
        (fun p => (splitInstall st1 index).dir.getD (hash p.1 % 2 ^ st1.globalDepth) 0
          == st1.buckets.length) →
      hash p.1 % 2 ^ ((bktAt st1 (dirAt st1 index)).depth + 1)
        = (index + 2 ^ (bktAt st1 (dirAt st1 index)).depth)
            % 2 ^ ((bktAt st1 (dirAt st1 index)).depth + 1) := by
    intro p hp
    have hf := List.of_mem_filter hp
    have hfd : (splitInstall st1 index).dir.getD (hash p.1 % 2 ^ st1.globalDepth) 0
        = st1.buckets.length := by simpa using hf
    have hjp : hash p.1 % 2 ^ st1.globalDepth < 2 ^ st1.globalDepth := Nat.mod_lt _ hgpos
    have h1 := hval_L _ hjp hfd
    rw [← mod_mod_of_le (hash p.1) ((bktAt st1 (dirAt st1 index)).depth + 1)
        st1.globalDepth hDG]
    exact h1
  constructor
  · refine ⟨?_, ?_, ?_, ?_, ?_, ?_, ?_, ?_, ?_⟩
    · rw [hFdirlen, hFg, W1]
    · intro j hj
      have hj1 : j < st1.dir.length := by rw [← hFdirlen]; exact hj
      have hj2 : j < 2 ^ st1.globalDepth := by rw [← W1]; exact hj1
      rw [hFdir2 j, hFblen]
      rcases hclass j hj2 with ⟨_, he⟩ | ⟨_, he⟩ | ⟨_, he⟩ <;> rw [he]
      · exact Nat.lt_succ_of_lt (W2 j hj1)
      · exact Nat.lt_succ_of_lt hbidlt
      · exact Nat.lt_succ_self _
    · intro j hj
      have hj1 : j < st1.dir.length := by rw [← hFdirlen]; exact hj
      have hj2 : j < 2 ^ st1.globalDepth := by rw [← W1]; exact hj1
      rw [hFdir2 j, hFg]
      rcases hclass j hj2 with ⟨hnc, he⟩ | ⟨_, he⟩ | ⟨_, he⟩ <;> rw [he]
      · have hne1 : st1.dir.getD j 0 ≠ dirAt st1 index := hold_ne_bid j hj1 hnc
        have hne2 : st1.dir.getD j 0 ≠ st1.buckets.length := Nat.ne_of_lt (W2 j hj1)
        rw [hFoth _ hne1 hne2]
        exact W3 j hj1
      · rw [hoDepth]
        exact hd
      · rw [hnDepth]
        exact hd
    · intro j hj j' hj' hcong
      have hj1 : j < st1.dir.length := by rw [← hFdirlen]; exact hj
      have hj2 : j < 2 ^ st1.globalDepth := by rw [← W1]; exact hj1
      have hj1' : j' < st1.dir.length := by rw [← hFdirlen]; exact hj'
      have hj2' : j' < 2 ^ st1.globalDepth := by rw [← W1]; exact hj1'
      rw [hFdir2 j] at hcong
      rw [hFdir2 j, hFdir2 j']
      rcases hclass j hj2 with ⟨hnc, he⟩ | ⟨hc, he⟩ | ⟨hc, he⟩ <;> rw [he] at hcong ⊢
      · have hne1 : st1.dir.getD j 0 ≠ dirAt st1 index := hold_ne_bid j hj1 hnc
        have hne2 : st1.dir.getD j 0 ≠ st1.buckets.length := Nat.ne_of_lt (W2 j hj1)
        rw [hFoth _ hne1 hne2] at hcong
        have hj'nc : j' % 2 ^ (bktAt st1 (dirAt st1 index)).depth
            ≠ index % 2 ^ (bktAt st1 (dirAt st1 index)).depth := by
          intro hcj'
          have h1 : dirAt st1 j' = dirAt st1 index := W4 index hidx j' hj1' hcj'.symm
          have h2 : dirAt st1 j' = dirAt st1 j := W4 j hj1 j' hj1' hcong
          have h3 : dirAt st1 j = dirAt st1 index := by rw [← h2, h1]
          exact hne1 h3
        rw [hiA j' hj'nc]
        exact W4 j hj1 j' hj1' hcong
      · rw [hoDepth] at hcong
        have h1 : j' % 2 ^ ((bktAt st1 (dirAt st1 index)).depth + 1)
            = index % 2 ^ ((bktAt st1 (dirAt st1 index)).depth + 1) := by omega
        exact hiB j' hj2' h1
      · rw [hnDepth] at hcong
        have h1 : j' % 2 ^ ((bktAt st1 (dirAt st1 index)).depth + 1)
            = (index + 2 ^ (bktAt st1 (dirAt st1 index)).depth)
                % 2 ^ ((bktAt st1 (dirAt st1 index)).depth + 1) := by omega
        exact hiC j' hj2' h1
    · intro j hj j' hj' heq
      have hj1 : j < st1.dir.length := by rw [← hFdirlen]; exact hj
      have hj2 : j < 2 ^ st1.globalDepth := by rw [← W1]; exact hj1
      have hj1' : j' < st1.dir.length := by rw [← hFdirlen]; exact hj'
      have hj2' : j' < 2 ^ st1.globalDepth := by rw [← W1]; exact hj1'
      rw [hFdir2 j, hFdir2 j'] at heq
      rw [hFdir2 j]
      rcases hclass j hj2 with ⟨hnc, he⟩ | ⟨hc, he⟩ | ⟨hc, he⟩ <;> rw [he] at heq ⊢
      · have hne1 : st1.dir.getD j 0 ≠ dirAt st1 index := hold_ne_bid j hj1 hnc
        have hne2 : st1.dir.getD j 0 ≠ st1.buckets.length := Nat.ne_of_lt (W2 j hj1)
        rw [hFoth _ hne1 hne2]
        have hj'nc : j' % 2 ^ (bktAt st1 (dirAt st1 index)).depth
            ≠ index % 2 ^ (bktAt st1 (dirAt st1 index)).depth := by
          intro hcj'
          rcases hclass j' hj2' with ⟨hnc', _⟩ | ⟨_, he'⟩ | ⟨_, he'⟩
          · exact hnc' hcj'
          · rw [he'] at heq
            exact hne1 heq.symm
          · rw [he'] at heq
            exact hne2 heq.symm
        have heq' : st1.dir.getD j' 0 = st1.dir.getD j 0 := by
          rw [← hiA j' hj'nc]
          exact heq
        exact W5 j hj1 j' hj1' heq'
      · rw [hoDepth]
        have h1 := hval_bid j' hj2' heq
        omega
      · rw [hnDepth]
        have h1 := hval_L j' hj2' heq
        omega
    · intro j hj p hp
      have hj1 : j < st1.dir.length := by rw [← hFdirlen]; exact hj
      have hj2 : j < 2 ^ st1.globalDepth := by rw [← W1]; exact hj1
      rw [hFdir2 j] at hp ⊢
      rcases hclass j hj2 with ⟨hnc, he⟩ | ⟨hc, he⟩ | ⟨hc, he⟩ <;> rw [he] at hp ⊢
      · have hne1 : st1.dir.getD j 0 ≠ dirAt st1 index := hold_ne_bid j hj1 hnc
        have hne2 : st1.dir.getD j 0 ≠ st1.buckets.length := Nat.ne_of_lt (W2 j hj1)
        rw [hFoth _ hne1 hne2] at hp ⊢
        exact W6 j hj1 p hp
      · rw [hoList] at hp
        rw [hoDepth]
        have h1 := hmem_old p hp
        omega
      · rw [hnList] at hp
        rw [hnDepth]
        have h1 := hmem_new p hp
        omega
    · intro j hj
      have hj1 : j < st1.dir.length := by rw [← hFdirlen]; exact hj
      have hj2 : j < 2 ^ st1.globalDepth := by rw [← W1]; exact hj1
      rw [hFdir2 j]
      rcases hclass j hj2 with ⟨hnc, he⟩ | ⟨_, he⟩ | ⟨_, he⟩ <;> rw [he]
      · have hne1 : st1.dir.getD j 0 ≠ dirAt st1 index := hold_ne_bid j hj1 hnc
        have hne2 : st1.dir.getD j 0 ≠ st1.buckets.length := Nat.ne_of_lt (W2 j hj1)
        rw [hFoth _ hne1 hne2]
        exact W7 j hj1
      · rw [hoList]
        exact (W7 index hidx).sublist (List.filter_sublist _)
      · rw [hnList]
        exact (W7 index hidx).sublist (List.filter_sublist _)
    · intro j hj
      have hj1 : j < st1.dir.length := by rw [← hFdirlen]; exact hj
      have hj2 : j < 2 ^ st1.globalDepth := by rw [← W1]; exact hj1
      rw [hFdir2 j, hFbs]
      rcases hclass j hj2 with ⟨hnc, he⟩ | ⟨_, he⟩ | ⟨_, he⟩ <;> rw [he]
      · have hne1 : st1.dir.getD j 0 ≠ dirAt st1 index := hold_ne_bid j hj1 hnc
        have hne2 : st1.dir.getD j 0 ≠ st1.buckets.length := Nat.ne_of_lt (W2 j hj1)
        rw [hFoth _ hne1 hne2]
        exact W8 j hj1
      · exact hoCap
      · exact hnCap
    · intro j hj
      have hj1 : j < st1.dir.length := by rw [← hFdirlen]; exact hj
      have hj2 : j < 2 ^ st1.globalDepth := by rw [← W1]; exact hj1
      rw [hFdir2 j]
      rcases hclass j hj2 with ⟨hnc, he⟩ | ⟨_, he⟩ | ⟨_, he⟩ <;> rw [he]
      · have hne1 : st1.dir.getD j 0 ≠ dirAt st1 index := hold_ne_bid j hj1 hnc
        have hne2 : st1.dir.getD j 0 ≠ st1.buckets.length := Nat.ne_of_lt (W2 j hj1)
        rw [hFoth _ hne1 hne2]
        exact W9 j hj1
      · rw [hoList, hoCap]
        refine Nat.le_trans (List.length_filter_le _ _) ?_
        rw [← W8 index hidx]
        exact W9 index hidx
      · rw [hnList, hnCap]
        refine Nat.le_trans (List.length_filter_le _ _) ?_
        rw [← W8 index hidx]
        exact W9 index hidx
  · intro k'
    have hFidx : indexOf hash (splitAt hash st1 index) k'
        = hash k' % 2 ^ st1.globalDepth := by
      show hash k' % 2 ^ (splitAt hash st1 index).globalDepth = _
      rw [hFg]
    have hjp : hash k' % 2 ^ st1.globalDepth < 2 ^ st1.globalDepth := Nat.mod_lt _ hgpos
    have hjl : hash k' % 2 ^ st1.globalDepth < st1.dir.length := by
      rw [W1]
      exact hjp
    show bktFind (bktAt (splitAt hash st1 index)
        (dirAt (splitAt hash st1 index) (indexOf hash (splitAt hash st1 index) k'))) k'
      = bktFind (bktAt st1 (dirAt st1 (hash k' % 2 ^ st1.globalDepth))) k'
    rw [hFidx, hFdir2]
    rcases hclass _ hjp with ⟨hnc, he⟩ | ⟨hc, he⟩ | ⟨hc, he⟩ <;> rw [he]
    · have hne1 : st1.dir.getD (hash k' % 2 ^ st1.globalDepth) 0 ≠ dirAt st1 index :=
        hold_ne_bid _ hjl hnc
      have hne2 : st1.dir.getD (hash k' % 2 ^ st1.globalDepth) 0 ≠ st1.buckets.length :=
        Nat.ne_of_lt (W2 _ hjl)
      rw [hFoth _ hne1 hne2]
      rfl
    · have hcD : (hash k' % 2 ^ st1.globalDepth) % 2 ^ (bktAt st1 (dirAt st1 index)).depth
          = index % 2 ^ (bktAt st1 (dirAt st1 index)).depth := by
        rw [← mod_mod_of_le (hash k' % 2 ^ st1.globalDepth)
              (bktAt st1 (dirAt st1 index)).depth ((bktAt st1 (dirAt st1 index)).depth + 1)
              (Nat.le_succ _), hc,
            mod_mod_of_le index (bktAt st1 (dirAt st1 index)).depth
              ((bktAt st1 (dirAt st1 index)).depth + 1) (Nat.le_succ _)]
      have hrhs : dirAt st1 (hash k' % 2 ^ st1.globalDepth) = dirAt st1 index :=
        W4 index hidx _ hjl hcD.symm
      rw [hrhs]
      show ((bktAt (splitAt hash st1 index) (dirAt st1 index)).list.find?
          (fun p => p.1 == k')).map (fun p => p.2)
        = ((bktAt st1 (dirAt st1 index)).list.find? (fun p => p.1 == k')).map (fun p => p.2)
      rw [hoList, find?_filter_pairwise _ _ _ (W7 index hidx)]
      cases hfk : ((bktAt st1 (dirAt st1 index)).list.find? (fun p => p.1 == k')) with
      | none => simp
      | some p =>
          have hpk : p.1 = k' := by
            have := List.find?_some hfk
            simpa using this
          have hfp : (splitInstall st1 index).dir.getD (hash p.1 % 2 ^ st1.globalDepth) 0
              = dirAt st1 index := by
            rw [hpk]
            exact he
          have hfpb : ((splitInstall st1 index).dir.getD (hash p.1 % 2 ^ st1.globalDepth) 0
              == dirAt st1 index) = true := by simpa using hfp
          show Option.map (fun p => p.2)
              (if ((splitInstall st1 index).dir.getD (hash p.1 % 2 ^ st1.globalDepth) 0
                  == dirAt st1 index) then some p else none)
            = Option.map (fun p => p.2) (some p)
          rw [if_pos hfpb]
    · have hcD : (hash k' % 2 ^ st1.globalDepth) % 2 ^ (bktAt st1 (dirAt st1 index)).depth
          = index % 2 ^ (bktAt st1 (dirAt st1 index)).depth := by
        rw [← mod_mod_of_le (hash k' % 2 ^ st1.globalDepth)
              (bktAt st1 (dirAt st1 index)).depth ((bktAt st1 (dirAt st1 index)).depth + 1)
              (Nat.le_succ _), hc,
            mod_mod_of_le (index + 2 ^ (bktAt st1 (dirAt st1 index)).depth)
              (bktAt st1 (dirAt st1 index)).depth
              ((bktAt st1 (dirAt st1 index)).depth + 1) (Nat.le_succ _),
            Nat.add_mod_right]
      have hrhs : dirAt st1 (hash k' % 2 ^ st1.globalDepth) = dirAt st1 index :=
        W4 index hidx _ hjl hcD.symm
      rw [hrhs]
      show ((bktAt (splitAt hash st1 index) st1.buckets.length).list.find?
          (fun p => p.1 == k')).map (fun p => p.2)
        = ((bktAt st1 (dirAt st1 index)).list.find? (fun p => p.1 == k')).map (fun p => p.2)
      rw [hnList, find?_filter_pairwise _ _ _ (W7 index hidx)]
      cases hfk : ((bktAt st1 (dirAt st1 index)).list.find? (fun p => p.1 == k')) with
      | none => simp
      | some p =>
          have hpk : p.1 = k' := by
            have := List.find?_some hfk
            simpa using this
          have hfp : (splitInstall st1 index).dir.getD (hash p.1 % 2 ^ st1.globalDepth) 0
              = st1.buckets.length := by
            rw [hpk]
            exact he
          have hfpb : ((splitInstall st1 index).dir.getD (hash p.1 % 2 ^ st1.globalDepth) 0
              == st1.buckets.length) = true := by simpa using hfp
          show Option.map (fun p => p.2)
              (if ((splitInstall st1 index).dir.getD (hash p.1 % 2 ^ st1.globalDepth) 0
                  == st1.buckets.length) then some p else none)
            = Option.map (fun p => p.2) (some p)
          rw [if_pos hfpb]

end EHT

namespace EHT

/-- One-step equation of `InsertInternal`: the bucket insert succeeded. -/
theorem insertInternalE_succ_ok (hash : Nat → Nat) (fuel : Nat) (st : Tbl) (k v : Nat)
    (rz : Bool)
    (hok : (bktInsert (bktAt st (dirAt st (indexOf hash st k))) k v).1 = true) :
    insertInternalE hash (fuel + 1) st k v rz
      = some (true, setBkt st (dirAt st (indexOf hash st k))
          (bktInsert (bktAt st (dirAt st (indexOf hash st k))) k v).2) := by
  simp only [insertInternalE]
  rw [show bktInsert (bktAt st (dirAt st (indexOf hash st k))) k v
      = (true, (bktInsert (bktAt st (dirAt st (indexOf hash st k))) k v).2) from by
    rw [← hok]]
  rfl

/-- One-step equation of `InsertInternal`: full bucket, not resizable. -/
theorem insertInternalE_succ_fail_nr (hash : Nat → Nat) (fuel : Nat) (st : Tbl) (k v : Nat)
    (hok : (bktInsert (bktAt st (dirAt st (indexOf hash st k))) k v).1 = false) :
    insertInternalE hash (fuel + 1) st k v false = some (false, st) := by
  simp only [insertInternalE]
  rw [show bktInsert (bktAt st (dirAt st (indexOf hash st k))) k v
      = (false, (bktInsert (bktAt st (dirAt st (indexOf hash st k))) k v).2) from by
    rw [← hok]]
  rfl

/-- One-step equation of `InsertInternal`: full bucket, resizable — split
(after doubling when the bucket is at full depth) and retry. -/
theorem insertInternalE_succ_fail_rz (hash : Nat → Nat) (fuel : Nat) (st : Tbl) (k v : Nat)
    (hok : (bktInsert (bktAt st (dirAt st (indexOf hash st k))) k v).1 = false) :
    insertInternalE hash (fuel + 1) st k v true
      = insertInternalE hash fuel
          (splitAt hash
            (if (bktAt st (dirAt st (indexOf hash st k))).depth = st.globalDepth then
              { st with globalDepth := st.globalDepth + 1, dir := st.dir ++ st.dir }
            else st)
            (indexOf hash st k)) k v true := by
  simp only [insertInternalE]
  rw [show bktInsert (bktAt st (dirAt st (indexOf hash st k))) k v
      = (false, (bktInsert (bktAt st (dirAt st (indexOf hash st k))) k v).2) from by
    rw [← hok]]
  rfl

end EHT

namespace EHT

/-- Resizable `InsertInternal` on a well-formed table: whenever it returns,
it reports success, preserves the invariant, maps the key to the value and
leaves every other key's lookup unchanged (fuel induction over the
split-and-retry loop). -/
theorem insertInternal_rz_ok (hash : Nat → Nat) (k v : Nat) :
    ∀ (fuel : Nat) (st : Tbl) (res : Bool × Tbl), WFE hash st →
      insertInternalE hash fuel st k v true = some res →
      res.1 = true ∧ WFE hash res.2 ∧ findE hash res.2 k = some v ∧
      (∀ k', k' ≠ k → findE hash res.2 k' = findE hash st k') := by
  intro fuel
  induction fuel with
  | zero =>
      intro st res hwf h
      exact absurd h (by simp [insertInternalE])
  | succ fuel ih =>
      intro st res hwf h
      have hgpos : (0:Nat) < 2 ^ st.globalDepth := Nat.pos_pow_of_pos _ (by omega)
      have hidx0 : indexOf hash st k < st.dir.length := by
        show hash k % 2 ^ st.globalDepth < st.dir.length
        rw [hwf.1]
        exact Nat.mod_lt _ hgpos
      cases hok : (bktInsert (bktAt st (dirAt st (indexOf hash st k))) k v).1 with
      | true =>
          rw [insertInternalE_succ_ok hash fuel st k v true hok] at h
          have hres : res = (true, setBkt st (dirAt st (indexOf hash st k))
              (bktInsert (bktAt st (dirAt st (indexOf hash st k))) k v).2) :=
            (Option.some.inj h).symm
          obtain ⟨hwf', hfind, hpres⟩ := insert_success hash st k v hwf hok
          rw [hres]
          exact ⟨rfl, hwf', hfind, hpres⟩
      | false =>
          rw [insertInternalE_succ_fail_rz hash fuel st k v hok] at h
          by_cases hdg : (bktAt st (dirAt st (indexOf hash st k))).depth = st.globalDepth
          · rw [if_pos hdg] at h
            obtain ⟨hwfD, hfD⟩ := double_ok hash st hwf
            have hidxD : indexOf hash st k < ({ st with globalDepth := st.globalDepth + 1, dir := st.dir ++ st.dir } : Tbl).dir.length := by
              show indexOf hash st k < (st.dir ++ st.dir).length
              rw [List.length_append]
              omega
            have hdidx : dirAt { st with globalDepth := st.globalDepth + 1, dir := st.dir ++ st.dir } (indexOf hash st k) = dirAt st (indexOf hash st k) := by
              show (st.dir ++ st.dir).getD (indexOf hash st k) 0 = _
              exact List.getD_append _ _ _ _ hidx0
            have hdD : (bktAt { st with globalDepth := st.globalDepth + 1, dir := st.dir ++ st.dir } (dirAt { st with globalDepth := st.globalDepth + 1, dir := st.dir ++ st.dir } (indexOf hash st k))).depth < ({ st with globalDepth := st.globalDepth + 1, dir := st.dir ++ st.dir } : Tbl).globalDepth := by
              rw [hdidx]
              show (bktAt st (dirAt st (indexOf hash st k))).depth < st.globalDepth + 1
              omega
            obtain ⟨hwfS, hfS⟩ := split_core hash
              { st with globalDepth := st.globalDepth + 1, dir := st.dir ++ st.dir }
              (indexOf hash st k) hwfD hidxD hdD
            obtain ⟨hres1, hwfR, hfindR, hpresR⟩ := ih _ res hwfS h
            refine ⟨hres1, hwfR, hfindR, ?_⟩
            intro k' hk'
            rw [hpresR k' hk', hfS k', hfD k']
          · rw [if_neg hdg] at h
            have hdlt : (bktAt st (dirAt st (indexOf hash st k))).depth < st.globalDepth :=
              Nat.lt_of_le_of_ne (hwf.2.2.1 _ hidx0) hdg
            obtain ⟨hwfS, hfS⟩ := split_core hash st (indexOf hash st k) hwf hidx0 hdlt
            obtain ⟨hres1, hwfR, hfindR, hpresR⟩ := ih _ res hwfS h
            refine ⟨hres1, hwfR, hfindR, ?_⟩
            intro k' hk'
            rw [hpresR k' hk', hfS k']

/-- Non-resizable `InsertInternal` either succeeds with the single bucket
insert or reports failure leaving the table untouched. -/
theorem insertInternalE_nr (hash : Nat → Nat) (fuel : Nat) (st : Tbl) (k v : Nat)
    (res : Bool × Tbl)
    (h : insertInternalE hash fuel st k v false = some res) :
    (res.1 = true ∧ (bktInsert (bktAt st (dirAt st (indexOf hash st k))) k v).1 = true ∧
      res.2 = setBkt st (dirAt st (indexOf hash st k))
        (bktInsert (bktAt st (dirAt st (indexOf hash st k))) k v).2) ∨
    (res.1 = false ∧ res.2 = st) := by
  cases fuel with
  | zero => exact absurd h (by simp [insertInternalE])
  | succ fuel =>
      cases hok : (bktInsert (bktAt st (dirAt st (indexOf hash st k))) k v).1 with
      | true =>
          rw [insertInternalE_succ_ok hash fuel st k v false hok] at h
          have hres := (Option.some.inj h).symm
          exact Or.inl ⟨by rw [hres], rfl, by rw [hres]⟩
      | false =>
          rw [insertInternalE_succ_fail_nr hash fuel st k v hok] at h
          have hres := (Option.some.inj h).symm
          exact Or.inr ⟨by rw [hres], by rw [hres]⟩

/-- `Insert` on a well-formed table: the key becomes findable with the new
value, no other key's lookup changes, and the invariant is preserved. -/
theorem insertE_ok (hash : Nat → Nat) (fuel : Nat) (st st' : Tbl) (k v : Nat)
    (hwf : WFE hash st) (h : insertE hash fuel st k v = some st') :
    findE hash st' k = some v ∧
    (∀ k', k' ≠ k → findE hash st' k' = findE hash st k') ∧
    WFE hash st' := by
  unfold insertE at h
  cases hnr : insertInternalE hash fuel st k v false with
  | none =>
      rw [hnr] at h
      exact absurd h (by simp)
  | some res =>
      rw [hnr] at h
      obtain ⟨flag, stA⟩ := res
      cases flag with
      | true =>
          have hstA : stA = st' := by
            simpa using h
          rcases insertInternalE_nr hash fuel st k v (true, stA) hnr with
            ⟨_, hok, hA⟩ | ⟨hfalse, _⟩
          · obtain ⟨hwf', hfind, hpres⟩ := insert_success hash st k v hwf hok
            simp only at hA
            rw [← hstA, hA]
            exact ⟨hfind, hpres, hwf'⟩
          · exact absurd hfalse (by simp)
      | false =>
          cases hrz : insertInternalE hash fuel st k v true with
          | none =>
              rw [hrz] at h
              exact absurd h (by simp)
          | some res2 =>
              rw [hrz] at h
              have hst' : res2.2 = st' := by
                obtain ⟨f2, st2⟩ := res2
                simpa using h
              obtain ⟨_, hwfR, hfindR, hpresR⟩ :=
                insertInternal_rz_ok hash k v fuel st res2 hwf hrz
              rw [← hst']
              exact ⟨hfindR, hpresR, hwfR⟩

end EHT

open EHT in
/-- C7: after `Insert(k, v)` on a well-formed extendible hash table,
`Find(k)` yields `v` — even when the insert triggers bucket splits and
directory doubling; no other key's mapping is changed (so previously
inserted keys survive every split), the representation invariant is
preserved, and a subsequent `Insert(k, v2)` overwrites the mapping so
`Find(k)` then yields `v2`. -/
theorem ehtInsertFindRoundTrip (hash : Nat → Nat) (fuel : Nat) (st st' : Tbl) (k v : Nat)
    (hwf : WFE hash st) (h : insertE hash fuel st k v = some st') :
    findE hash st' k = some v ∧
    (∀ k', k' ≠ k → findE hash st' k' = findE hash st k') ∧
    WFE hash st' ∧
    (∀ fuel2 st'' v2, insertE hash fuel2 st' k v2 = some st'' →
      findE hash st'' k = some v2) := by
  obtain ⟨h1, h2, h3⟩ := insertE_ok hash fuel st st' k v hwf h
  exact ⟨h1, h2, h3, fun fuel2 st'' v2 h4 => (insertE_ok hash fuel2 st' st'' k v2 h3 h4).1⟩

open EHT in
/-- Witness: on the one-slot table holding key 0, `Insert(1, 11)` runs the
doubling-and-split path, and the round-trip theorem applies to it. -/
theorem ehtInsertFindRoundTrip_witness :
    WFE id eht7Start ∧ insertE id 3 eht7Start 1 11 = some eht7End ∧
    (findE id eht7End 1 = some 11 ∧
      (∀ k', k' ≠ 1 → findE id eht7End k' = findE id eht7Start k') ∧
      WFE id eht7End ∧
      (∀ fuel2 st'' v2, insertE id fuel2 eht7End 1 v2 = some st'' →
        findE id st'' 1 = some v2)) :=
  ⟨by decide, by rfl,
    ehtInsertFindRoundTrip id 3 eht7Start eht7End 1 11 (by decide) (by rfl)⟩
